import Mathlib

/-!
# A directory lister: `list_directory`, `read_directory`, `sort_entries`, `print_directory`, `main`

Shallow embedding of `src/functions.c` and `src/main.c`, and the properties of the listing.

* A C string is the list of its bytes, without the terminating NUL (`Bytes`).
* The doubly linked list of `DirEntry` records is a `List DirEntry`; `prev`/`next` are the
  list structure, and `free_entries` has no effect on what is observed.
* The filesystem, the user/group databases and the clock formatting are parameters
  (`FS`, `Env`): the program only observes them through `opendir`/`readdir`, `stat`,
  `getpwuid_r`, `getgrgid_r` and `strftime (localtime ...)`.
* Integer fields are natural numbers; `printf` reads them through the 64-bit types of an LP64
  platform (`%lu` modulo `2 ^ 64`, `%ld` in two's complement).
* Standard output is a list of chunks, one per header and one per call of `print_directory`,
  so that the bytes written and where they come from are both visible.  Messages on standard
  error are not modelled.
* A call that dereferences a null pointer ends the run; this is the `Bool` of a `Run`.
* Recursive functions carry a bound on the depth of the recursion; `sort_entries` and the
  merge loop are given a bound that is always enough, `list_directory` returns `none` when
  its bound is reached.
* Memory allocation is assumed to succeed.
-/

namespace Ls

/-- The bytes of a C string, terminator excluded. -/
abbrev Bytes := List Nat

/-- The bytes of an ASCII literal. -/
def ascii (s : String) : Bytes := s.toList.map Char.toNat

/-! ## Data model (`inc/header.h`) -/

/-- The fields of `struct stat` the program reads. -/
structure Stat where
  st_mode : Nat
  st_ino : Nat
  st_nlink : Nat
  st_uid : Nat
  st_gid : Nat
  st_size : Nat
  st_mtime : Nat
deriving DecidableEq, Repr

/-- One node of the entry list: `name` and `st` of `struct DirEntry`. -/
structure DirEntry where
  name : Bytes
  st : Stat
deriving DecidableEq, Repr

/-- The record `Arguments` of `header.h`. -/
structure Arguments where
  long_listing : Bool
  hidden_list : Bool
  recursive_list : Bool
  show_inode : Bool
deriving DecidableEq, Repr

/-! ## `strcmp` -/

/-- The C library `strcmp`: the difference of the first pair of differing bytes (compared as
`unsigned char`), the end of a string counting as the byte 0, and 0 when the strings agree up
to their terminator. -/
def strcmp : Bytes → Bytes → Int
  | [], [] => 0
  | [], b :: _ => 0 - (b : Int)
  | a :: _, [] => (a : Int)
  | a :: as, b :: bs =>
    if a ≠ b then (a : Int) - (b : Int)
    else if a = 0 then 0
    else strcmp as bs

/-! ## `sort_entries` (functions.c 157-200) -/

/-- The slow/fast pointer loop of `sort_entries` (lines 163-168).  `pre` are the nodes before
`mid`, `rest` the nodes after `mid`, and the last argument the nodes from `fast` on.  The
result is the pair `(left, right)` obtained by cutting the list after `mid` (lines 170-173). -/
def find_mid (pre : List DirEntry) (mid : DirEntry) (rest : List DirEntry) :
    List DirEntry → List DirEntry × List DirEntry
  | _ :: _ :: fast =>
    match rest with
    | m :: rest' => find_mid (pre ++ [mid]) m rest' fast
    | [] => (pre ++ [mid], [])
  | _ => (pre ++ [mid], rest)

/-- The merge loop of `sort_entries` (lines 184-197): while both lists are non-empty the
head of `left` is taken when `strcmp (left->name, right->name) < 0` and the head of `right`
otherwise; the remaining list is appended.  The first argument bounds the number of
iterations; `left.length + right.length` is always enough. -/
def merge_loop : Nat → List DirEntry → List DirEntry → List DirEntry
  | _, [], right => right
  | _, left, [] => left
  | 0, left, _ => left
  | n + 1, l :: ls, r :: rs =>
    if strcmp l.name r.name < 0 then l :: merge_loop n ls (r :: rs)
    else r :: merge_loop n (l :: ls) rs

/-- The body of `sort_entries` with the recursion depth bounded by the first argument. -/
def sort_fuel : Nat → List DirEntry → List DirEntry
  | _, [] => []
  | _, [e] => [e]
  | 0, l => l
  | fuel + 1, h :: t =>
    let halves := find_mid [] h t t
    let left := sort_fuel fuel halves.1
    let right := sort_fuel fuel halves.2
    merge_loop (left.length + right.length) left right

/-- The function `sort_entries`: each recursive call is on a strictly shorter list, so the
length of the list bounds the depth. -/
def sort_entries (head : List DirEntry) : List DirEntry :=
  sort_fuel head.length head

/-- Ordering of entries by name: `strcmp (a->name, b->name) <= 0`. -/
def name_le (a b : DirEntry) : Prop := strcmp a.name b.name ≤ 0

instance : DecidableRel name_le := fun a b => by unfold name_le; infer_instance

/-! ## `print_directory` (functions.c 105-154) -/

/-- The decimal digits of a natural number. -/
def decimal (n : Nat) : Bytes := (Nat.toDigits 10 n).map Char.toNat

/-- The conversion `%lu` of `printf`: the argument is read as a 64-bit `unsigned long`. -/
def fmt_lu (n : Nat) : Bytes := decimal (n % 2 ^ 64)

/-- The conversion `%ld` of `printf`: the 64 bits of the argument are read as a signed
`long` in two's complement. -/
def fmt_ld (n : Nat) : Bytes :=
  if n % 2 ^ 64 < 2 ^ 63 then decimal (n % 2 ^ 64) else 45 :: decimal (2 ^ 64 - n % 2 ^ 64)

/-- A minimum field width: the text is right-justified, padded with spaces on the left. -/
def pad_left (width : Nat) (s : Bytes) : Bytes := List.replicate (width - s.length) 32 ++ s

/-- File type mask of `st_mode` (`sys/stat.h`). -/
def S_IFMT : Nat := 0o170000
/-- File type value of a directory. -/
def S_IFDIR : Nat := 0o040000
/-- Owner read permission bit. -/
def S_IRUSR : Nat := 0o400
/-- Owner write permission bit. -/
def S_IWUSR : Nat := 0o200
/-- Owner execute permission bit. -/
def S_IXUSR : Nat := 0o100
/-- Group read permission bit. -/
def S_IRGRP : Nat := 0o040
/-- Group write permission bit. -/
def S_IWGRP : Nat := 0o020
/-- Group execute permission bit. -/
def S_IXGRP : Nat := 0o010
/-- Others read permission bit. -/
def S_IROTH : Nat := 0o004
/-- Others write permission bit. -/
def S_IWOTH : Nat := 0o002
/-- Others execute permission bit. -/
def S_IXOTH : Nat := 0o001

/-- The test `S_ISDIR (m)`, that is `(m & S_IFMT) == S_IFDIR`. -/
def S_ISDIR (m : Nat) : Bool := (m &&& S_IFMT) == S_IFDIR

/-- One `printf ("%c", (mode & mask) ? c : '-')`. -/
def flag_char (mode mask c : Nat) : Nat := if mode &&& mask ≠ 0 then c else 45

/-- The ten `printf ("%c", ...)` calls of lines 111-120. -/
def perm_chars (mode : Nat) : Bytes :=
  [ if S_ISDIR mode then 100 else 45,
    flag_char mode S_IRUSR 114, flag_char mode S_IWUSR 119, flag_char mode S_IXUSR 120,
    flag_char mode S_IRGRP 114, flag_char mode S_IWGRP 119, flag_char mode S_IXGRP 120,
    flag_char mode S_IROTH 114, flag_char mode S_IWOTH 119, flag_char mode S_IXOTH 120 ]

/-- The escape sequence `BLUE` of `colors.h`, `"\033[34m"`. -/
def BLUE : Bytes := [27, 91, 51, 52, 109]

/-- The escape sequence `RESET` of `colors.h`, `"\033[0m"`. -/
def RESET : Bytes := [27, 91, 48, 109]

/-- Outcome of `getpwuid_r` / `getgrgid_r`: a record was found (return value 0, result
pointer set), no record matches (return value 0, result pointer `NULL`), or the call failed
(non-zero return value). -/
inductive Lookup where
  | found (name : Bytes)
  | absent
  | failed
deriving DecidableEq, Repr

/-- The user database, the group database, the rendering of a modification time by
`strftime (..., "%b %d %H:%M", localtime (...))`, and the value `errno` has after a call of
`perror` as a function of its value before (the call may change it, for instance when
standard error is closed). -/
structure Env where
  getpwuid_r : Nat → Lookup
  getgrgid_r : Nat → Lookup
  strftime : Nat → Bytes
  perror : Nat → Nat

/-- The name a lookup found; empty when it found none. -/
def Lookup.name : Lookup → Bytes
  | Lookup.found name => name
  | _ => []

/-- The final `printf` of `print_directory` (lines 148-153). -/
def name_field (entry : DirEntry) : Bytes :=
  if S_ISDIR entry.st.st_mode then [32] ++ BLUE ++ entry.name ++ RESET ++ [10]
  else [32] ++ entry.name ++ [10]

/-- The function `print_directory`.  The result is the text written to standard output and
whether the call faulted: `user_name->pw_name` (resp. `grp_name->gr_name`) dereferences a null
pointer when the lookup returned 0 without a record. -/
def print_directory (env : Env) (entry : DirEntry) (options : Arguments) : Bytes × Bool :=
  let out0 : Bytes := if options.show_inode then fmt_ld entry.st.st_ino ++ [32] else []
  if options.long_listing then
    let out1 := out0 ++ perm_chars entry.st.st_mode
    let out2 := out1 ++ [32] ++ fmt_lu entry.st.st_nlink
    match env.getpwuid_r entry.st.st_uid with
    | Lookup.failed => (out2, false)
    | Lookup.absent => (out2, true)
    | Lookup.found user =>
      let out3 := out2 ++ [32] ++ user
      match env.getgrgid_r entry.st.st_gid with
      | Lookup.failed => (out3, false)
      | Lookup.absent => (out3, true)
      | Lookup.found group =>
        let out4 := out3 ++ [32] ++ group
        let out5 := out4 ++ [32] ++ pad_left 7 (fmt_lu entry.st.st_size)
        let out6 := out5 ++ [32] ++ env.strftime entry.st.st_mtime
        (out6 ++ name_field entry, false)
  else (out0 ++ name_field entry, false)

/-! ## `read_directory` (functions.c 45-102) -/

/-- What the program observes of the filesystem: `opendir` followed by the `readdir` loop
yields the names of a directory in the platform's order, or fails; `stat` yields the status
of a path, or fails. -/
structure FS where
  opendir : Bytes → Option (List Bytes)
  stat : Bytes → Option Stat

/-- The call `snprintf (buf, size, "%s/%s", path, name)`: at most `size - 1` bytes of the
joined text are stored. -/
def snprintf_join (size : Nat) (path name : Bytes) : Bytes :=
  (path ++ [47] ++ name).take (size - 1)

/-- The buffer `full_path` of `read_directory` after line 79. -/
def full_path (path d_name : Bytes) : Bytes := snprintf_join 512 path d_name

/-- The buffer `subdir_path` of `list_directory` after line 33. -/
def subdir_path (path name : Bytes) : Bytes := snprintf_join 512 path name

/-- The test `name[0] == '.'` on a C string. -/
def starts_with_dot (name : Bytes) : Bool := name.head? == some 46

/-- The `readdir` loop of `read_directory` (lines 53-98) over the names still to come; the
last argument is the list built so far. -/
def read_loop (fs : FS) (path : Bytes) (options : Arguments) :
    List Bytes → List DirEntry → List DirEntry
  | [], acc => acc
  | d_name :: more, acc =>
    if !options.hidden_list && starts_with_dot d_name then
      read_loop fs path options more acc
    else
      match fs.stat (full_path path d_name) with
      | none => read_loop fs path options more acc
      | some st => read_loop fs path options more (acc ++ [⟨d_name, st⟩])

/-- The function `read_directory`: `none` is the return value -1 (no list is built), `some`
carries the list from `*head`. -/
def read_directory (fs : FS) (path : Bytes) (options : Arguments) : Option (List DirEntry) :=
  match fs.opendir path with
  | none => none
  | some names => some (read_loop fs path options names [])

/-! ## `list_directory` (functions.c 5-42) -/

/-- A piece of standard output: the header of a directory block (line 18) or the text one
call of `print_directory` wrote for an entry. -/
inductive Chunk where
  | header (path : Bytes)
  | line (entry : DirEntry) (text : Bytes)
deriving DecidableEq, Repr

/-- The bytes of a chunk; the header is `printf ("\n%s:\n", path)`. -/
def Chunk.bytes : Chunk → Bytes
  | Chunk.header path => [10] ++ path ++ [58, 10]
  | Chunk.line _ text => text

/-- The result of a run that ended: what it wrote, and whether it ended in a fault. -/
abbrev Run := List Chunk × Bool

/-- The bytes written to standard output. -/
def stdout_bytes (out : List Chunk) : Bytes := (out.map Chunk.bytes).flatten

/-- The printing loop of `list_directory` (lines 21-25). -/
def print_entries (env : Env) (options : Arguments) : List DirEntry → Run
  | [] => ([], false)
  | e :: rest =>
    let r := print_directory env e options
    if r.2 then ([Chunk.line e r.1], true)
    else
      let rs := print_entries env options rest
      (Chunk.line e r.1 :: rs.1, rs.2)

/-- The recursion loop of `list_directory` (lines 29-37); `recur` is the recursive call. -/
def descend (recur : Bytes → Option Run) (path : Bytes) : List DirEntry → Option Run
  | [] => some ([], false)
  | e :: rest =>
    if S_ISDIR e.st.st_mode && !starts_with_dot e.name then
      match recur (subdir_path path e.name) with
      | none => none
      | some (out, true) => some (out, true)
      | some (out, false) =>
        match descend recur path rest with
        | none => none
        | some (out', fault) => some (out ++ out', fault)
    else descend recur path rest

/-- The function `list_directory`.  The first argument bounds the depth of the recursion:
`none` means the bound was reached, so a call that returns is one that yields `some` for a
large enough bound. -/
def list_directory (fs : FS) (env : Env) : Nat → Bytes → Arguments → Option Run
  | 0, _, _ => none
  | fuel + 1, path, options =>
    match read_directory fs path options with
    | none => some ([], false)
    | some head =>
      let head := sort_entries head
      let printed := print_entries env options head
      let out := Chunk.header path :: printed.1
      if printed.2 then some (out, true)
      else if options.recursive_list then
        match descend (fun sub => list_directory fs env fuel sub options) path head with
        | none => none
        | some (out', fault) => some (out ++ out', fault)
      else some (out, false)

/-! ## `main` (main.c) -/

/-- The value of `EINVAL`. -/
def EINVAL : Nat := 22

/-- The option characters accepted by `getopt (argc, argv, "laRi")`. -/
def optstring : Bytes := ascii "laRi"

/-- A word that `getopt` reads as options: `-` followed by at least one byte. -/
def is_option_word : Bytes → Bool
  | 45 :: _ :: _ => true
  | _ => false

/-- The successive return values of `getopt` for the words after `argv[0]`, and the words
left from `optind` on when it returns -1.  A word of at least two bytes starting with `-`
is a group of option characters, each returned if it is in `optstring` and as `?` otherwise;
the word `--` ends the options; other words are operands, kept in their order (GNU `getopt`
moves them behind the options). -/
def getopt_scan : List Bytes → List Nat × List Bytes
  | [] => ([], [])
  | w :: ws =>
    if w = [45, 45] then ([], ws)
    else if is_option_word w then
      (w.tail.map (fun x => if x ∈ optstring then x else 63) ++ (getopt_scan ws).1,
        (getopt_scan ws).2)
    else ((getopt_scan ws).1, w :: (getopt_scan ws).2)

/-- The `switch` of `main` (lines 18-39) over the values returned by `getopt`; `none` is the
`return errno` of the cases `?` and `default`. -/
def apply_options : List Nat → Arguments → Option Arguments
  | [], options => some options
  | opt :: more, options =>
    if opt = 108 then apply_options more { options with long_listing := true }
    else if opt = 97 then apply_options more { options with hidden_list := true }
    else if opt = 82 then apply_options more { options with recursive_list := true }
    else if opt = 105 then apply_options more { options with show_inode := true }
    else none

/-- The loop of `main` over the path arguments (lines 50-52). -/
def list_paths (fs : FS) (env : Env) (fuel : Nat) (options : Arguments) :
    List Bytes → Option Run
  | [] => some ([], false)
  | path :: more =>
    match list_directory fs env fuel path options with
    | none => none
    | some (out, true) => some (out, true)
    | some (out, false) =>
      match list_paths fs env fuel options more with
      | none => none
      | some (out', fault) => some (out ++ out', fault)

/-- The function `main` on `argv` (so `argc = argv.length`): the run of the listing and the
value `main` returns.  The three usage errors happen before any listing and return `errno`
as `perror` left it, after it was set to `EINVAL`; after the loop over the paths `main`
returns 0; when the listing faults the process is killed and `main` returns nothing. -/
def main (fs : FS) (env : Env) (fuel : Nat) (argv : List Bytes) : Option (Run × Option Nat) :=
  if argv.length < 2 ∨ argv.length > 6 then some (([], false), some (env.perror EINVAL))
  else
    match apply_options (getopt_scan argv.tail).1 ⟨false, false, false, false⟩ with
    | none => some (([], false), some (env.perror EINVAL))
    | some options =>
      if (getopt_scan argv.tail).2 = [] then some (([], false), some (env.perror EINVAL))
      else
        match list_paths fs env fuel options (getopt_scan argv.tail).2 with
        | none => none
        | some (out, true) => some ((out, true), none)
        | some (out, false) => some ((out, false), some 0)

/-! ## Reading the output -/

/-- The entries of the line chunks at the front of an output, up to the next header. -/
def leading_entries : List Chunk → List DirEntry
  | Chunk.line e _ :: rest => e :: leading_entries rest
  | _ => []

/-- The directory blocks of an output: each header with the entries printed under it. -/
def blocks : List Chunk → List (Bytes × List DirEntry)
  | [] => []
  | Chunk.header path :: rest => (path, leading_entries rest) :: blocks rest
  | Chunk.line _ _ :: rest => blocks rest

/-- The paths of the headers of an output, in the order printed. -/
def headers (out : List Chunk) : List Bytes := (blocks out).map Prod.fst

/-! ## A filesystem given by a directory tree -/

/-- A finite directory tree: regular files and directories with named children. -/
inductive Node where
  | file (st : Stat)
  | dir (st : Stat) (children : List (Bytes × Node))

/-- The status of a node. -/
def Node.st : Node → Stat
  | Node.file st => st
  | Node.dir st _ => st

/-- The components of a path: the maximal runs of bytes other than `/`.  The second argument
is the component being read. -/
def split_path : Bytes → Bytes → List Bytes
  | [], cur => if cur = [] then [] else [cur]
  | c :: cs, cur =>
    if c = 47 then (if cur = [] then split_path cs [] else cur :: split_path cs [])
    else split_path cs (cur ++ [c])

/-- One step of path resolution.  The stack holds the directory reached and its ancestors;
`.` stays, `..` goes up (the root is its own parent), a name selects the child of that name,
and any component looked up in a regular file fails. -/
def walk_step (stack : List Node) (comp : Bytes) : Option (List Node) :=
  match stack with
  | [] => none
  | Node.file _ :: _ => none
  | Node.dir _ children :: up =>
    if comp = [46] then some stack
    else if comp = [46, 46] then some (if up.isEmpty then stack else up)
    else (children.lookup comp).map (fun child => child :: stack)

/-- Resolution of a list of components from a stack. -/
def walk : List Node → List Bytes → Option (List Node)
  | stack, [] => some stack
  | stack, comp :: more =>
    match walk_step stack comp with
    | none => none
    | some stack' => walk stack' more

/-- Path resolution in the tree `root`, which is both the root directory and the working
directory: the empty path does not resolve, and a path with a trailing `/` only resolves to
a directory. -/
def resolve (root : Node) (path : Bytes) : Option Node :=
  if path = [] then none
  else
    match walk [root] (split_path path []) with
    | some (Node.dir st children :: _) => some (Node.dir st children)
    | some (Node.file st :: _) => if path.getLast? = some 47 then none else some (Node.file st)
    | _ => none

/-- The filesystem whose content is the tree `root`: `readdir` yields `.`, `..` and the
children in the order of the tree. -/
def tree_fs (root : Node) : FS where
  opendir path :=
    match resolve root path with
    | some (Node.dir _ children) => some ([46] :: [46, 46] :: children.map Prod.fst)
    | _ => none
  stat path := (resolve root path).map Node.st

/-! ## Vocabulary for the statements -/

/-- An output that is empty or begins with a header. -/
def HeaderFirst (out : List Chunk) : Prop :=
  out = [] ∨ ∃ path rest, out = Chunk.header path :: rest

/-- The line chunks the printing loop writes for a list of entries. -/
def lines_of (env : Env) (options : Arguments) (es : List DirEntry) : List Chunk :=
  es.map (fun e => Chunk.line e (print_directory env e options).1)

/-! ## Well-formed trees and their traversal -/

/-- Whether a node is a directory. -/
def Node.is_dir : Node → Bool
  | Node.file _ => false
  | Node.dir _ _ => true

/-- A name a directory entry can have: not empty, without `/`, and neither `.` nor `..`. -/
def name_ok (n : Bytes) : Bool :=
  decide (n ≠ []) && decide (47 ∉ n) && decide (n ≠ [46]) && decide (n ≠ [46, 46])

mutual
/-- A well-formed tree: the mode of every node tells its kind, and in every directory the
names are valid and distinct. -/
def tree_ok : Node → Bool
  | Node.file st => !S_ISDIR st.st_mode
  | Node.dir st cs => S_ISDIR st.st_mode && decide ((cs.map Prod.fst).Nodup) && tree_ok_list cs
/-- Well-formedness of the children of a directory. -/
def tree_ok_list : List (Bytes × Node) → Bool
  | [] => true
  | (n, c) :: rest => name_ok n && tree_ok c && tree_ok_list rest
end

mutual
/-- The number of directory levels of a tree. -/
def Node.depth : Node → Nat
  | Node.file _ => 0
  | Node.dir _ cs => 1 + depth_list cs
/-- The largest depth among the children of a directory. -/
def depth_list : List (Bytes × Node) → Nat
  | [] => 0
  | (_, c) :: rest => max c.depth (depth_list rest)
end

mutual
/-- Every path that the listing of a directory, reached by a path of `len` bytes, joins in
the buffers `full_path` and `subdir_path` fits in their 511 bytes: this holds for `..` and
for every child, and again in every subdirectory whose name does not begin with `.`. -/
def fits : Nat → Node → Bool
  | _, Node.file _ => true
  | len, Node.dir _ cs => decide (len + 3 ≤ 511) && fits_list len cs
/-- The condition `fits` on the children of a directory reached by a path of `len` bytes. -/
def fits_list : Nat → List (Bytes × Node) → Bool
  | _, [] => true
  | len, (n, c) :: rest =>
    decide (len + 1 + n.length ≤ 511) && (starts_with_dot n || fits (len + 1 + n.length) c) &&
      fits_list len rest
end

/-- The children a recursive listing descends into: the directories whose name does not
begin with `.`. -/
def descended (nc : Bytes × Node) : Bool := nc.2.is_dir && !starts_with_dot nc.1

mutual
/-- The pre-order, depth-first traversal of the directories of a tree from the directory at
`path`: the path itself, then the traversals of the subdirectories whose name does not begin
with `.`, each once, in an order ascending by name. -/
inductive Traversal : Bytes → Node → List Bytes → Prop
  | dir (path : Bytes) (st : Stat) (cs subs : List (Bytes × Node)) (hs : List Bytes) :
      subs.Perm (cs.filter descended) →
      subs.Pairwise (fun a b => strcmp a.1 b.1 ≤ 0) →
      TraversalList path subs hs → Traversal path (Node.dir st cs) (path :: hs)
/-- The traversals of a list of subdirectories of the directory at `path`, in the order of
the list. -/
inductive TraversalList : Bytes → List (Bytes × Node) → List Bytes → Prop
  | nil (path : Bytes) : TraversalList path [] []
  | cons (path n : Bytes) (c : Node) (rest : List (Bytes × Node)) (h hs : List Bytes) :
      Traversal (path ++ [47] ++ n) c h → TraversalList path rest hs →
      TraversalList path ((n, c) :: rest) (h ++ hs)
end

/-! ## Concrete inputs -/

/-- An entry with a given name and inode number. -/
def tagged (name : String) (ino : Nat) : DirEntry :=
  ⟨ascii name, ⟨0o100644, ino, 1, 0, 0, 0, 0⟩⟩

/-- The status of a directory with mode `rwxr-xr-x`. -/
def st_dir : Stat := ⟨0o040755, 2, 2, 0, 0, 4096, 0⟩

/-- The status of a regular file with mode `rw-r--r--`, one link and 42 bytes. -/
def st_file : Stat := ⟨0o100644, 3, 1, 0, 0, 42, 0⟩

/-- An environment in which every user and group id resolves. -/
def env_ok : Env :=
  ⟨fun _ => Lookup.found (ascii "root"), fun _ => Lookup.found (ascii "wheel"),
    fun _ => ascii "Jan 01 00:00", fun e => e⟩

/-- Scenario A: the directory `/tmp/x` enumerates `b.txt`, `a.txt`, `.c` in that order, all
regular files. -/
def fs_scenario_a : FS where
  opendir path := if path = ascii "/tmp/x" then some [ascii "b.txt", ascii "a.txt", ascii ".c"]
    else none
  stat path :=
    if path = ascii "/tmp/x/b.txt" ∨ path = ascii "/tmp/x/a.txt" ∨ path = ascii "/tmp/x/.c"
    then some st_file else none

/-- An environment in which `getpwuid_r` fails with a non-zero return value. -/
def env_user_fails : Env :=
  ⟨fun _ => Lookup.failed, fun _ => Lookup.found (ascii "wheel"), fun _ => ascii "Jan 01 00:00",
    fun e => e⟩

/-- An environment in which `getpwuid_r` returns 0 and finds no record. -/
def env_user_absent : Env :=
  ⟨fun _ => Lookup.absent, fun _ => Lookup.found (ascii "wheel"), fun _ => ascii "Jan 01 00:00",
    fun e => e⟩

/-- An environment in which `getgrgid_r` fails with a non-zero return value. -/
def env_group_fails : Env :=
  ⟨fun _ => Lookup.found (ascii "root"), fun _ => Lookup.failed, fun _ => ascii "Jan 01 00:00",
    fun e => e⟩

/-- A name of 254 bytes `a`. -/
def name_a : Bytes := List.replicate 254 97

/-- A name of 254 bytes `b`. -/
def name_b : Bytes := List.replicate 254 98

/-- A tree with the directory `/aaa...a/bbb...b`, which holds the regular file `f`. -/
def deep_tree : Node :=
  Node.dir ⟨0o040755, 2, 3, 0, 0, 4096, 0⟩
    [(name_a, Node.dir ⟨0o040755, 10, 3, 0, 0, 4096, 0⟩
      [(name_b, Node.dir ⟨0o040755, 11, 2, 0, 0, 4096, 0⟩
        [(ascii "f", Node.file ⟨0o100644, 12, 1, 0, 0, 42, 0⟩)])])]

/-- The path `/aaa...a/bbb...b`, of 510 bytes. -/
def deep_path : Bytes := [47] ++ name_a ++ [47] ++ name_b

/-- Scenario B: `/tmp/x` holds the empty directory `sub` and the file `a.txt`. -/
def tree_scenario_b : Node :=
  Node.dir st_dir
    [(ascii "tmp", Node.dir st_dir
      [(ascii "x", Node.dir st_dir
        [(ascii "sub", Node.dir st_dir []), (ascii "a.txt", Node.file st_file)])])]

/-- The word `-c` of a command line. -/
def flag_word (c : Nat) : Bytes := [45, c]

/-- The option record in which exactly the flags of the given option characters are set. -/
def options_of (flags : List Nat) : Arguments :=
  ⟨decide (108 ∈ flags), decide (97 ∈ flags), decide (82 ∈ flags), decide (105 ∈ flags)⟩

/-- The line of an entry in the words of the specification: the inode number and a space if
inode display is on; in long format the permission string, the link count, the user name,
the group name, the size in a field of width 7 and the timestamp, separated by single spaces;
then a space, the name (in colour for a directory) and a newline. -/
def line_spec (env : Env) (entry : DirEntry) (options : Arguments) (user group : Bytes) :
    Bytes :=
  (if options.show_inode then decimal entry.st.st_ino ++ [32] else []) ++
  (if options.long_listing then
    perm_chars entry.st.st_mode ++ [32] ++ decimal entry.st.st_nlink ++ [32] ++ user ++
      [32] ++ group ++ [32] ++ pad_left 7 (decimal entry.st.st_size) ++ [32] ++
      env.strftime entry.st.st_mtime
  else []) ++
  [32] ++ (if S_ISDIR entry.st.st_mode then BLUE ++ entry.name ++ RESET else entry.name) ++
  [10]

/-- An environment like `env_ok` in which `perror` fails to write and leaves `EBADF` (9) in
`errno`. -/
def env_stderr_closed : Env :=
  ⟨fun _ => Lookup.found (ascii "root"), fun _ => Lookup.found (ascii "wheel"),
    fun _ => ascii "Jan 01 00:00", fun _ => 9⟩

/-- The output of `list_directory` on `/tmp/x` of Scenario A with `-a -i`. -/
def listing_a_i : List Chunk :=
  [Chunk.header (ascii "/tmp/x"),
    Chunk.line ⟨ascii ".c", st_file⟩ (ascii "3  .c\n"),
    Chunk.line ⟨ascii "a.txt", st_file⟩ (ascii "3  a.txt\n"),
    Chunk.line ⟨ascii "b.txt", st_file⟩ (ascii "3  b.txt\n")]

/-- A tree whose root, the working directory, holds the directory `-x` with the file
`a.txt`. -/
def tree_dash : Node :=
  Node.dir st_dir [(ascii "-x", Node.dir st_dir [(ascii "a.txt", Node.file st_file)])]


/-! ## `strcmp` is a total preorder -/


theorem strcmp_swap : ∀ a b : Bytes, strcmp b a = - strcmp a b
  | [], [] => by simp [strcmp]
  | [], b :: _ => by simp [strcmp]
  | a :: _, [] => by simp [strcmp]
  | a :: as, b :: bs => by
    have ih := strcmp_swap as bs
    unfold strcmp
    by_cases h : a = b
    · subst h
      by_cases h0 : a = 0
      · simp [h0]
      · simp [h0, ih]
    · have h' : b ≠ a := fun e => h e.symm
      simp [h, h']

theorem strcmp_trans : ∀ a b c : Bytes, strcmp a b ≤ 0 → strcmp b c ≤ 0 → strcmp a c ≤ 0
  | [], [], c => by intro _ h; exact h
  | [], b :: bs, [] => by simp [strcmp]
  | [], b :: bs, c :: cs => by
    unfold strcmp
    intro h1 h2
    split_ifs at h2 <;> omega
  | a :: as, [], c => by
    intro h1 h2
    cases c with
    | nil => simp [strcmp] at h1 ⊢; omega
    | cons c cs =>
      simp only [strcmp] at h1 h2 ⊢
      split_ifs <;> omega
  | a :: as, b :: bs, [] => by
    intro h1 h2
    simp only [strcmp] at h1 h2 ⊢
    split_ifs at h1 <;> omega
  | a :: as, b :: bs, c :: cs => by
    intro h1 h2
    have ih := strcmp_trans as bs cs
    simp only [strcmp] at h1 h2 ⊢
    split_ifs at h1 h2 ⊢ <;> omega

theorem name_le_of_not_lt {a b : DirEntry} (h : ¬ strcmp a.name b.name < 0) : name_le b a := by
  unfold name_le
  rw [strcmp_swap a.name b.name]
  omega

theorem name_le_trans {a b c : DirEntry} (h1 : name_le a b) (h2 : name_le b c) : name_le a c :=
  strcmp_trans _ _ _ h1 h2

/-- On names without a NUL byte, `strcmp` is negative exactly when the first name is below
the second in the lexicographic order of the byte values. -/
theorem strcmp_neg_iff_lex : ∀ a b : Bytes, 0 ∉ a → 0 ∉ b →
    (strcmp a b < 0 ↔ List.Lex (fun x y : Nat => x < y) a b)
  | [], [], _, _ => by
    simp only [strcmp, lt_self_iff_false, false_iff]
    intro h
    cases h
  | [], b :: bs, _, hb => by
    have hb0 : b ≠ 0 := fun e => hb (by simp [e])
    simp only [strcmp]
    constructor
    · intro _
      exact List.Lex.nil
    · intro _
      omega
  | a :: as, [], _, _ => by
    simp only [strcmp]
    constructor
    · intro h
      omega
    · intro h
      cases h
  | a :: as, b :: bs, ha, hb => by
    have ih := strcmp_neg_iff_lex as bs (fun h => ha (List.mem_cons_of_mem _ h))
      (fun h => hb (List.mem_cons_of_mem _ h))
    have ha0 : a ≠ 0 := fun e => ha (by simp [e])
    unfold strcmp
    by_cases hab : a = b
    · subst hab
      simp only [ne_eq, not_true_eq_false, if_false, ha0, ih]
      constructor
      · intro h
        exact List.Lex.cons h
      · intro h
        cases h with
        | cons h' => exact h'
        | rel h' => exact absurd h' (lt_irrefl a)
    · simp only [ne_eq, hab, not_false_eq_true, if_true]
      constructor
      · intro h
        exact List.Lex.rel (by omega)
      · intro h
        cases h with
        | cons h' => exact absurd rfl hab
        | rel h' => omega

/-! ## `sort_entries` sorts and permutes -/

theorem find_mid_spec : ∀ (n : Nat) (fast pre : List DirEntry) (mid : DirEntry)
    (rest : List DirEntry), fast.length ≤ n → fast.length ≤ rest.length → rest ≠ [] →
    (find_mid pre mid rest fast).1 ++ (find_mid pre mid rest fast).2 = pre ++ mid :: rest ∧
    (find_mid pre mid rest fast).1 ≠ [] ∧ (find_mid pre mid rest fast).2 ≠ [] := by
  intro n
  induction n with
  | zero =>
    intro fast pre mid rest h0 _ hr
    have : fast = [] := List.length_eq_zero.mp (Nat.le_zero.mp h0)
    subst this
    simp [find_mid, hr]
  | succ n ih =>
    intro fast pre mid rest hn hle hr
    match fast, rest, hr, hn, hle with
    | [], rest, hr, _, _ => simp [find_mid, hr]
    | [_], rest, hr, _, _ => simp [find_mid, hr]
    | _ :: _ :: fast, m :: rest, _, hn, hle =>
      simp only [List.length_cons] at hn hle
      have hrest : rest ≠ [] := by
        intro e
        subst e
        simp at hle
      have := ih fast (pre ++ [mid]) m rest (by omega) (by omega) hrest
      simpa [find_mid] using this

theorem merge_loop_perm : ∀ (n : Nat) (left right : List DirEntry),
    left.length + right.length ≤ n → (merge_loop n left right).Perm (left ++ right) := by
  intro n
  induction n with
  | zero =>
    intro left right h
    have hl : left = [] := List.length_eq_zero.mp (by omega)
    have hr : right = [] := List.length_eq_zero.mp (by omega)
    subst hl hr
    simp [merge_loop]
  | succ n ih =>
    intro left right h
    match left, right, h with
    | [], right, _ => simp [merge_loop]
    | l :: ls, [], _ => simp [merge_loop]
    | l :: ls, r :: rs, h =>
      simp only [List.length_cons] at h
      simp only [merge_loop]
      split_ifs
      · exact (ih ls (r :: rs) (by simp; omega)).cons l
      · have h1 := (ih (l :: ls) rs (by simp; omega)).cons r
        exact h1.trans (List.perm_middle.symm)

theorem merge_loop_sorted : ∀ (n : Nat) (left right : List DirEntry),
    left.length + right.length ≤ n → left.Pairwise name_le → right.Pairwise name_le →
    (merge_loop n left right).Pairwise name_le := by
  intro n
  induction n with
  | zero =>
    intro left right h
    have hl : left = [] := List.length_eq_zero.mp (by omega)
    have hr : right = [] := List.length_eq_zero.mp (by omega)
    subst hl hr
    simp [merge_loop]
  | succ n ih =>
    intro left right h sl sr
    match left, right, h, sl, sr with
    | [], right, _, _, sr => simpa [merge_loop] using sr
    | l :: ls, [], _, sl, _ => simpa [merge_loop] using sl
    | l :: ls, r :: rs, h, sl, sr =>
      simp only [List.length_cons] at h
      simp only [merge_loop]
      have sl' := List.pairwise_cons.mp sl
      have sr' := List.pairwise_cons.mp sr
      split_ifs with hlt
      · refine List.pairwise_cons.mpr ⟨?_, ih ls (r :: rs) (by simp; omega) sl'.2 sr⟩
        intro x hx
        have hx' := (merge_loop_perm n ls (r :: rs) (by simp; omega)).mem_iff.mp hx
        rcases List.mem_append.mp hx' with hx1 | hx1
        · exact sl'.1 x hx1
        · have hlr : name_le l r := by unfold name_le; omega
          rcases List.mem_cons.mp hx1 with rfl | hx2
          · exact hlr
          · exact name_le_trans hlr (sr'.1 x hx2)
      · refine List.pairwise_cons.mpr ⟨?_, ih (l :: ls) rs (by simp; omega) sl sr'.2⟩
        intro x hx
        have hx' := (merge_loop_perm n (l :: ls) rs (by simp; omega)).mem_iff.mp hx
        have hrl : name_le r l := name_le_of_not_lt hlt
        rcases List.mem_append.mp hx' with hx1 | hx1
        · rcases List.mem_cons.mp hx1 with rfl | hx2
          · exact hrl
          · exact name_le_trans hrl (sl'.1 x hx2)
        · exact sr'.1 x hx1

theorem sort_fuel_spec : ∀ (fuel : Nat) (l : List DirEntry), l.length ≤ fuel →
    (sort_fuel fuel l).Perm l ∧ (sort_fuel fuel l).Pairwise name_le := by
  intro fuel
  induction fuel with
  | zero =>
    intro l h
    have hl : l = [] := List.length_eq_zero.mp (by omega)
    subst hl
    simp [sort_fuel]
  | succ fuel ih =>
    intro l h
    match l, h with
    | [], _ => simp [sort_fuel]
    | [e], _ => simp [sort_fuel]
    | a :: b :: t, h =>
      simp only [sort_fuel]
      obtain ⟨happ, h1, h2⟩ := find_mid_spec (b :: t).length (b :: t) [] a (b :: t)
        (le_refl _) (le_refl _) (by simp)
      have hlen : (find_mid [] a (b :: t) (b :: t)).1.length +
          (find_mid [] a (b :: t) (b :: t)).2.length = (a :: b :: t).length := by
        rw [← List.length_append, happ]; simp
      have hl1 : 0 < (find_mid [] a (b :: t) (b :: t)).1.length := List.length_pos.mpr h1
      have hl2 : 0 < (find_mid [] a (b :: t) (b :: t)).2.length := List.length_pos.mpr h2
      obtain ⟨p1, s1⟩ := ih (find_mid [] a (b :: t) (b :: t)).1 (by omega)
      obtain ⟨p2, s2⟩ := ih (find_mid [] a (b :: t) (b :: t)).2 (by omega)
      constructor
      · refine (merge_loop_perm _ _ _ (le_refl _)).trans ?_
        refine (p1.append p2).trans ?_
        rw [happ]
        simp
      · exact merge_loop_sorted _ _ _ (le_refl _) s1 s2

theorem sort_entries_perm (l : List DirEntry) : (sort_entries l).Perm l :=
  (sort_fuel_spec l.length l (le_refl _)).1

theorem sort_entries_sorted (l : List DirEntry) : (sort_entries l).Pairwise name_le :=
  (sort_fuel_spec l.length l (le_refl _)).2

/-! ## The shape of the output of `list_directory` -/

theorem leading_entries_lines_of (env : Env) (options : Arguments) (es : List DirEntry)
    (rest : List Chunk) (h : HeaderFirst rest) :
    leading_entries (lines_of env options es ++ rest) = es := by
  induction es with
  | nil =>
    rcases h with rfl | ⟨p, t, rfl⟩ <;> simp [lines_of, leading_entries]
  | cons e es ih =>
    simpa [lines_of, leading_entries] using ih

theorem blocks_lines_of (env : Env) (options : Arguments) (es : List DirEntry)
    (rest : List Chunk) : blocks (lines_of env options es ++ rest) = blocks rest := by
  induction es with
  | nil => simp [lines_of]
  | cons e es ih => simpa [lines_of, blocks] using ih

theorem leading_entries_append (a b : List Chunk) (h : HeaderFirst b) :
    leading_entries (a ++ b) = leading_entries a := by
  induction a with
  | nil => rcases h with rfl | ⟨p, t, rfl⟩ <;> simp [leading_entries]
  | cons c a ih =>
    cases c with
    | header p => simp [leading_entries]
    | line e t => simp [leading_entries, ih]

theorem blocks_append (a b : List Chunk) (h : HeaderFirst b) :
    blocks (a ++ b) = blocks a ++ blocks b := by
  induction a with
  | nil => simp [blocks]
  | cons c a ih =>
    cases c with
    | header p => simp [blocks, ih, leading_entries_append a b h]
    | line e t => simp [blocks, ih]

theorem headerFirst_append {a b : List Chunk} (ha : HeaderFirst a) (hb : HeaderFirst b) :
    HeaderFirst (a ++ b) := by
  rcases ha with rfl | ⟨p, t, rfl⟩
  · simpa using hb
  · exact Or.inr ⟨p, t ++ b, by simp⟩

/-- The printing loop writes the lines of a prefix of the list, and of the whole list when
it does not fault. -/
theorem print_entries_spec (env : Env) (options : Arguments) : ∀ es : List DirEntry,
    ∃ k, (print_entries env options es).1 = lines_of env options (es.take k) ∧
      ((print_entries env options es).2 = false → es.take k = es) := by
  intro es
  induction es with
  | nil => exact ⟨0, by simp [print_entries, lines_of]⟩
  | cons e es ih =>
    obtain ⟨k, hk, hk'⟩ := ih
    by_cases hf : (print_directory env e options).2 = true
    · refine ⟨1, ?_, ?_⟩
      · simp [print_entries, hf, lines_of]
      · simp [print_entries, hf]
    · refine ⟨k + 1, ?_, ?_⟩
      · simp [print_entries, hf, lines_of] at hk ⊢
        exact hk
      · intro h
        simp [print_entries, hf] at h
        simp [hk' h]

/-! ## C1, C3: ordering of the listing -/

/-- A property of outputs that holds of the empty output, is kept by concatenation and holds
of every recursive call, holds of the output of the recursion loop. -/
theorem descend_invariant (Q : List Chunk → Prop) (hnil : Q [])
    (happ : ∀ a b, Q a → Q b → Q (a ++ b)) (recur : Bytes → Option Run) (path : Bytes)
    (hrec : ∀ sub run, recur sub = some run → Q run.1) :
    ∀ (es : List DirEntry) (run : Run), descend recur path es = some run → Q run.1 := by
  intro es
  induction es with
  | nil =>
    intro run h
    simp [descend] at h
    subst h
    exact hnil
  | cons e es ih =>
    intro run h
    simp only [descend] at h
    split_ifs at h with hd
    · cases hr : recur (subdir_path path e.name) with
      | none => simp [hr] at h
      | some r =>
        obtain ⟨out, f⟩ := r
        have hq := hrec _ _ hr
        cases f with
        | true =>
          simp [hr] at h
          subst h
          exact hq
        | false =>
          simp only [hr] at h
          cases hd' : descend recur path es with
          | none => simp [hd'] at h
          | some r' =>
            obtain ⟨out', f'⟩ := r'
            simp [hd'] at h
            subst h
            exact happ _ _ hq (ih _ hd')
    · exact ih run h

/-- Every output of `list_directory` is empty or starts with a header, and the entries of
each of its blocks are sorted by name. -/
theorem list_directory_blocks_sorted (fs : FS) (env : Env) : ∀ (fuel : Nat) (path : Bytes)
    (options : Arguments) (run : Run), list_directory fs env fuel path options = some run →
    HeaderFirst run.1 ∧ ∀ blk ∈ blocks run.1, blk.2.Pairwise name_le := by
  intro fuel
  induction fuel with
  | zero =>
    intro path options run h
    simp [list_directory] at h
  | succ fuel ih =>
    intro path options run h
    simp only [list_directory] at h
    cases hr : read_directory fs path options with
    | none =>
      simp [hr] at h
      subst h
      exact ⟨Or.inl rfl, by simp [blocks]⟩
    | some head =>
      simp only [hr] at h
      obtain ⟨k, hk, _⟩ := print_entries_spec env options (sort_entries head)
      have hsorted : ((sort_entries head).take k).Pairwise name_le :=
        (sort_entries_sorted head).sublist (List.take_sublist _ _)
      have hown : ∀ rest, HeaderFirst rest → (∀ blk ∈ blocks rest, blk.2.Pairwise name_le) →
          ∀ blk ∈ blocks (Chunk.header path ::
            ((print_entries env options (sort_entries head)).1 ++ rest)),
            blk.2.Pairwise name_le := by
        intro rest hrest hall blk hblk
        rw [hk] at hblk
        simp only [blocks, leading_entries_lines_of env options _ rest hrest,
          blocks_lines_of, List.mem_cons] at hblk
        rcases hblk with rfl | hblk
        · exact hsorted
        · exact hall blk hblk
      split_ifs at h with hf hrec
      · simp at h
        subst h
        refine ⟨Or.inr ⟨_, _, rfl⟩, ?_⟩
        have := hown [] (Or.inl rfl) (by simp [blocks])
        simpa using this
      · cases hd : descend (fun sub => list_directory fs env fuel sub options) path
            (sort_entries head) with
        | none => simp [hd] at h
        | some r =>
          obtain ⟨out', f'⟩ := r
          simp [hd] at h
          subst h
          have hq := descend_invariant
            (fun out => HeaderFirst out ∧ ∀ blk ∈ blocks out, blk.2.Pairwise name_le)
            ⟨Or.inl rfl, by simp [blocks]⟩
            (fun a b ha hb => ⟨headerFirst_append ha.1 hb.1, by
              intro blk hblk
              rw [blocks_append a b hb.1] at hblk
              rcases List.mem_append.mp hblk with h1 | h1
              · exact ha.2 blk h1
              · exact hb.2 blk h1⟩)
            (fun sub => list_directory fs env fuel sub options) path
            (fun sub run hsub => ih sub options run hsub) (sort_entries head) _ hd
          refine ⟨Or.inr ⟨_, _, rfl⟩, ?_⟩
          have := hown out' hq.1 hq.2
          simpa using this
      · simp at h
        subst h
        refine ⟨Or.inr ⟨_, _, rfl⟩, ?_⟩
        have := hown [] (Or.inl rfl) (by simp [blocks])
        simpa using this

/-- C1: for every list of entries, `sort_entries` returns a list in which every two adjacent
entries `(a, b)` satisfy `strcmp (a.name, b.name) <= 0` (indeed every earlier entry is below
every later one); hence in every directory block that `list_directory` prints, the names are
non-decreasing. -/
theorem sort_entries_ascending :
    (∀ head : List DirEntry,
      (sort_entries head).Chain' (fun a b => strcmp a.name b.name ≤ 0) ∧
      (sort_entries head).Pairwise (fun a b => strcmp a.name b.name ≤ 0)) ∧
    (∀ (fs : FS) (env : Env) (fuel : Nat) (path : Bytes) (options : Arguments) (run : Run),
      list_directory fs env fuel path options = some run →
      ∀ blk ∈ blocks run.1, (blk.2.map DirEntry.name).Chain' (fun a b => strcmp a b ≤ 0)) := by
  constructor
  · intro head
    exact ⟨(sort_entries_sorted head).chain', sort_entries_sorted head⟩
  · intro fs env fuel path options run h blk hblk
    have hp := (list_directory_blocks_sorted fs env fuel path options run h).2 blk hblk
    have hc : blk.2.Chain' name_le := hp.chain'
    exact (List.chain'_map DirEntry.name).mpr hc

theorem sort_entries_ascending_witness :
    (sort_entries [tagged "b" 1, tagged "a" 2, tagged "c" 3, tagged ".d" 4]).Chain'
      (fun a b => strcmp a.name b.name ≤ 0) ∧
    sort_entries [tagged "b" 1, tagged "a" 2, tagged "c" 3, tagged ".d" 4] =
      [tagged ".d" 4, tagged "a" 2, tagged "b" 1, tagged "c" 3] :=
  ⟨(sort_entries_ascending.1 _).1, by decide⟩

/-- C3: on two entries with the same name the merge step takes the entry of the right half
first (`strcmp < 0` fails on a tie), so `sort_entries` swaps them. -/
theorem sort_entries_swaps_equal_names :
    sort_entries [tagged "a" 1, tagged "a" 2] = [tagged "a" 2, tagged "a" 1] ∧
    strcmp (tagged "a" 1).name (tagged "a" 2).name = 0 ∧
    sort_entries [tagged "a" 1, tagged "b" 2, tagged "b" 3] =
      [tagged "a" 1, tagged "b" 3, tagged "b" 2] := by
  decide

/-! ## The recursion bound -/

theorem descend_mono (r1 r2 : Bytes → Option Run) (path : Bytes)
    (h : ∀ sub run, r1 sub = some run → r2 sub = some run) :
    ∀ (es : List DirEntry) (run : Run), descend r1 path es = some run →
      descend r2 path es = some run := by
  intro es
  induction es with
  | nil => intro run hrun; simpa [descend] using hrun
  | cons e es ih =>
    intro run hrun
    simp only [descend] at hrun ⊢
    split_ifs at hrun ⊢ with hd
    · cases h1 : r1 (subdir_path path e.name) with
      | none => simp [h1] at hrun
      | some r =>
        obtain ⟨out, f⟩ := r
        rw [h _ _ h1]
        cases f with
        | true => simpa [h1] using hrun
        | false =>
          simp only [h1] at hrun ⊢
          cases h2 : descend r1 path es with
          | none => simp [h2] at hrun
          | some r' =>
            rw [ih r' h2]
            simpa [h2] using hrun
    · exact ih run hrun

/-- A run that returns within a bound returns the same within any larger bound. -/
theorem list_directory_mono (fs : FS) (env : Env) : ∀ (fuel : Nat) (path : Bytes)
    (options : Arguments) (run : Run), list_directory fs env fuel path options = some run →
    list_directory fs env (fuel + 1) path options = some run := by
  intro fuel
  induction fuel with
  | zero => intro path options run h; simp [list_directory] at h
  | succ fuel ih =>
    intro path options run h
    rw [list_directory] at h ⊢
    cases hr : read_directory fs path options with
    | none => simpa [hr] using h
    | some head =>
      simp only [hr] at h ⊢
      split_ifs at h ⊢ with hf hrec
      · exact h
      · cases hd : descend (fun sub => list_directory fs env fuel sub options) path
            (sort_entries head) with
        | none => simp [hd] at h
        | some r =>
          rw [descend_mono _ (fun sub => list_directory fs env (fuel + 1) sub options) path
            (fun sub run hsub => ih sub options run hsub) _ r hd]
          simpa [hd] using h
      · exact h

/-! ## C2: completeness of the listing -/

/-- The `readdir` loop appends, in enumeration order, one entry for each name that passes the
hidden-entry test and whose `stat` succeeds. -/
theorem read_loop_eq (fs : FS) (path : Bytes) (options : Arguments) :
    ∀ (names : List Bytes) (acc : List DirEntry),
    read_loop fs path options names acc = acc ++
      (names.filter (fun n => options.hidden_list || !starts_with_dot n)).filterMap
        (fun n => (fs.stat (full_path path n)).map (fun st => (⟨n, st⟩ : DirEntry))) := by
  intro names
  induction names with
  | nil => intro acc; simp [read_loop]
  | cons n names ih =>
    intro acc
    simp only [read_loop]
    by_cases hskip : (!options.hidden_list && starts_with_dot n) = true
    · have hkeep : (options.hidden_list || !starts_with_dot n) = false := by
        cases hh : options.hidden_list <;> cases hd : starts_with_dot n <;> simp_all
      simp [hskip, ih, List.filter_cons, hkeep]
    · have hkeep : (options.hidden_list || !starts_with_dot n) = true := by
        cases hh : options.hidden_list <;> cases hd : starts_with_dot n <;> simp_all
      rw [if_neg hskip]
      cases hs : fs.stat (full_path path n) with
      | none => simp [ih, List.filter_cons, hkeep, hs]
      | some st => simp [ih, List.filter_cons, hkeep, hs]

/-- A run of `list_directory` that ends without a fault starts with the block of the
directory itself: its header and one line for each entry of the sorted list. -/
theorem list_directory_own_block (fs : FS) (env : Env) (fuel : Nat) (path : Bytes)
    (options : Arguments) (head : List DirEntry) (run : Run)
    (hread : read_directory fs path options = some head)
    (hrun : list_directory fs env fuel path options = some run) (hok : run.2 = false) :
    ∃ rest, HeaderFirst rest ∧
      run.1 = Chunk.header path :: (lines_of env options (sort_entries head) ++ rest) := by
  cases fuel with
  | zero => simp [list_directory] at hrun
  | succ fuel =>
    simp only [list_directory, hread] at hrun
    obtain ⟨k, hk, hk'⟩ := print_entries_spec env options (sort_entries head)
    split_ifs at hrun with hf hrec
    · simp at hrun
      subst hrun
      simp at hok
    · cases hd : descend (fun sub => list_directory fs env fuel sub options) path
          (sort_entries head) with
      | none => simp [hd] at hrun
      | some r =>
        obtain ⟨out', f'⟩ := r
        simp [hd] at hrun
        subst hrun
        have hq := descend_invariant HeaderFirst (Or.inl rfl)
          (fun a b ha hb => headerFirst_append ha hb)
          (fun sub => list_directory fs env fuel sub options) path
          (fun sub run hsub => (list_directory_blocks_sorted fs env fuel sub options run hsub).1)
          (sort_entries head) _ hd
        refine ⟨out', hq, ?_⟩
        have hfalse : (print_entries env options (sort_entries head)).2 = false := by
          simpa using hf
        rw [hk' hfalse] at hk
        simp [hk]
    · simp at hrun
      subst hrun
      have hfalse : (print_entries env options (sort_entries head)).2 = false := by
        simpa using hf
      rw [hk' hfalse] at hk
      exact ⟨[], Or.inl rfl, by simp [hk]⟩

theorem flag_char_testBit (mode k c : Nat) :
    flag_char mode (2 ^ k) c = if mode.testBit k then c else 45 := by
  unfold flag_char
  rw [Nat.and_two_pow]
  cases h : mode.testBit k <;> simp

/-- The test `S_ISDIR` reads the four bits of the file type field. -/
theorem S_ISDIR_bits (mode : Nat) :
    S_ISDIR mode = (mode.testBit 14 && !mode.testBit 12 && !mode.testBit 13 &&
      !mode.testBit 15) := by
  have key : (mode &&& S_IFMT = S_IFDIR) ↔
      (mode.testBit 14 = true ∧ mode.testBit 12 = false ∧ mode.testBit 13 = false ∧
        mode.testBit 15 = false) := by
    constructor
    · intro h
      have hb : ∀ i, (mode.testBit i && S_IFMT.testBit i) = S_IFDIR.testBit i := by
        intro i
        rw [← Nat.testBit_and, h]
      have h12 := hb 12
      have h13 := hb 13
      have h14 := hb 14
      have h15 := hb 15
      have e12 : S_IFMT.testBit 12 = true := by decide
      have e13 : S_IFMT.testBit 13 = true := by decide
      have e14 : S_IFMT.testBit 14 = true := by decide
      have e15 : S_IFMT.testBit 15 = true := by decide
      have d12 : S_IFDIR.testBit 12 = false := by decide
      have d13 : S_IFDIR.testBit 13 = false := by decide
      have d14 : S_IFDIR.testBit 14 = true := by decide
      have d15 : S_IFDIR.testBit 15 = false := by decide
      rw [e12, d12] at h12
      rw [e13, d13] at h13
      rw [e14, d14] at h14
      rw [e15, d15] at h15
      simp at h12 h13 h14 h15
      exact ⟨h14, h12, h13, h15⟩
    · rintro ⟨h14, h12, h13, h15⟩
      apply Nat.eq_of_testBit_eq
      intro i
      rw [Nat.testBit_and]
      by_cases hi : i < 16
      · interval_cases i <;> first
          | (rw [h12]; decide) | (rw [h13]; decide) | (rw [h14]; decide) | (rw [h15]; decide)
          | (generalize mode.testBit _ = b; cases b <;> decide)
      · have h1 : S_IFMT.testBit i = false :=
          Nat.testBit_lt_two_pow (lt_of_lt_of_le (by decide : S_IFMT < 2 ^ 16)
            (Nat.pow_le_pow_right (by decide) (by omega)))
        have h2 : S_IFDIR.testBit i = false :=
          Nat.testBit_lt_two_pow (lt_of_lt_of_le (by decide : S_IFDIR < 2 ^ 16)
            (Nat.pow_le_pow_right (by decide) (by omega)))
        rw [h1, h2]
        simp
  unfold S_ISDIR
  by_cases h : mode &&& S_IFMT = S_IFDIR
  · obtain ⟨h14, h12, h13, h15⟩ := key.mp h
    simp [h, h14, h12, h13, h15]
  · have hne : ¬ (mode.testBit 14 = true ∧ mode.testBit 12 = false ∧
        mode.testBit 13 = false ∧ mode.testBit 15 = false) := fun hb => h (key.mpr hb)
    have : (mode &&& S_IFMT == S_IFDIR) = false := by simpa using h
    rw [this]
    cases h14 : mode.testBit 14 <;> cases h12 : mode.testBit 12 <;>
      cases h13 : mode.testBit 13 <;> cases h15 : mode.testBit 15 <;> simp_all

/-- The permission string in terms of the bits of the mode. -/
theorem perm_chars_bits (mode : Nat) :
    perm_chars mode =
      [ if S_ISDIR mode then 100 else 45,
        if mode.testBit 8 then 114 else 45,
        if mode.testBit 7 then 119 else 45,
        if mode.testBit 6 then 120 else 45,
        if mode.testBit 5 then 114 else 45,
        if mode.testBit 4 then 119 else 45,
        if mode.testBit 3 then 120 else 45,
        if mode.testBit 2 then 114 else 45,
        if mode.testBit 1 then 119 else 45,
        if mode.testBit 0 then 120 else 45 ] := by
  have h8 : S_IRUSR = 2 ^ 8 := by decide
  have h7 : S_IWUSR = 2 ^ 7 := by decide
  have h6 : S_IXUSR = 2 ^ 6 := by decide
  have h5 : S_IRGRP = 2 ^ 5 := by decide
  have h4 : S_IWGRP = 2 ^ 4 := by decide
  have h3 : S_IXGRP = 2 ^ 3 := by decide
  have h2 : S_IROTH = 2 ^ 2 := by decide
  have h1 : S_IWOTH = 2 ^ 1 := by decide
  have h0 : S_IXOTH = 2 ^ 0 := by decide
  unfold perm_chars
  rw [h8, h7, h6, h5, h4, h3, h2, h1, h0]
  simp only [flag_char_testBit]

theorem perm_chars_xor_special (mode k : Nat) (hk : k = 9 ∨ k = 10 ∨ k = 11) :
    perm_chars (mode ^^^ 2 ^ k) = perm_chars mode := by
  rw [perm_chars_bits, perm_chars_bits, S_ISDIR_bits, S_ISDIR_bits]
  simp only [Nat.testBit_xor, Nat.testBit_two_pow]
  rcases hk with rfl | rfl | rfl <;> simp

/-- C5: for every mode the permission string has exactly 10 characters; the first is `d` when
the mode is that of a directory and `-` otherwise; the next nine are `r`, `w`, `x` for owner,
group and others, each the letter when its bit is set and `-` when it is clear; toggling the
setuid, setgid or sticky bit leaves the string unchanged; the mode `rw-r--r--` of a regular
file gives `-rw-r--r--`; and in long format `print_directory` writes this string right
after the optional inode field. -/
theorem permission_string (mode : Nat) :
    (perm_chars mode).length = 10 ∧
    perm_chars mode =
      [ if S_ISDIR mode then 100 else 45,
        if mode.testBit 8 then 114 else 45,
        if mode.testBit 7 then 119 else 45,
        if mode.testBit 6 then 120 else 45,
        if mode.testBit 5 then 114 else 45,
        if mode.testBit 4 then 119 else 45,
        if mode.testBit 3 then 120 else 45,
        if mode.testBit 2 then 114 else 45,
        if mode.testBit 1 then 119 else 45,
        if mode.testBit 0 then 120 else 45 ] ∧
    (S_ISDIR mode = true ↔ mode / 0o10000 % 0o20 = 0o4) ∧
    perm_chars (mode ^^^ 0o4000) = perm_chars mode ∧
    perm_chars (mode ^^^ 0o2000) = perm_chars mode ∧
    perm_chars (mode ^^^ 0o1000) = perm_chars mode ∧
    perm_chars 0o100644 = ascii "-rw-r--r--" ∧
    (∀ (env : Env) (name : Bytes) (st : Stat) (options : Arguments),
      st.st_mode = mode → options.long_listing = true →
      ∃ rest, (print_directory env ⟨name, st⟩ options).1 =
        (if options.show_inode then fmt_ld st.st_ino ++ [32] else []) ++
          perm_chars mode ++ rest) := by
  refine ⟨by simp [perm_chars], perm_chars_bits mode, ?_, ?_, ?_, ?_, by decide, ?_⟩
  · rw [S_ISDIR_bits]
    simp only [Nat.testBit_to_div_mod, Bool.and_eq_true, Bool.not_eq_true', decide_eq_true_eq,
      decide_eq_false_iff_not]
    norm_num
    omega
  · exact perm_chars_xor_special mode 11 (by simp)
  · exact perm_chars_xor_special mode 10 (by simp)
  · exact perm_chars_xor_special mode 9 (by simp)
  · intro env name st options hm hlong
    subst hm
    simp only [print_directory, hlong, if_true]
    cases env.getpwuid_r st.st_uid with
    | failed => exact ⟨[32] ++ fmt_lu st.st_nlink, by simp⟩
    | absent => exact ⟨[32] ++ fmt_lu st.st_nlink, by simp⟩
    | found user =>
      cases env.getgrgid_r st.st_gid with
      | failed => exact ⟨[32] ++ fmt_lu st.st_nlink ++ [32] ++ user, by simp⟩
      | absent => exact ⟨[32] ++ fmt_lu st.st_nlink ++ [32] ++ user, by simp⟩
      | found group =>
        exact ⟨[32] ++ fmt_lu st.st_nlink ++ [32] ++ user ++ [32] ++ group ++ [32] ++
          pad_left 7 (fmt_lu st.st_size) ++ [32] ++ env.strftime st.st_mtime ++
          name_field ⟨name, st⟩, by simp⟩

/-- Scenario C: a regular file with mode `rw-r--r--`, one link and 42 bytes. -/
theorem permission_string_scenario_c :
    perm_chars 0o100644 = ascii "-rw-r--r--" ∧
    (print_directory env_ok ⟨ascii "f", st_file⟩ ⟨true, false, false, false⟩).1 =
      ascii "-rw-r--r-- 1 root wheel      42 Jan 01 00:00 f\n" :=
  ⟨(permission_string 0o100644).2.2.2.2.2.2.1, by decide⟩

/-! ## C4, C9: the line of an entry -/

/-- C4: in long format, when `getpwuid_r` fails `print_directory` returns right after the
link count, so the line has no owner, no numeric id, no name and no newline; when it finds no
record the null result is dereferenced; a failing `getgrgid_r` cuts the line after the user
name. -/
theorem unresolved_owner_cuts_line :
    print_directory env_user_fails ⟨ascii "f", st_file⟩ ⟨true, false, false, false⟩ =
      (ascii "-rw-r--r-- 1", false) ∧
    print_directory env_user_absent ⟨ascii "f", st_file⟩ ⟨true, false, false, false⟩ =
      (ascii "-rw-r--r-- 1", true) ∧
    print_directory env_group_fails ⟨ascii "f", st_file⟩ ⟨true, false, false, false⟩ =
      (ascii "-rw-r--r-- 1 root", false) ∧
    print_directory env_ok ⟨ascii "f", st_file⟩ ⟨true, false, false, false⟩ =
      (ascii "-rw-r--r-- 1 root wheel      42 Jan 01 00:00 f\n", false) := by
  decide

/-- The layout of a line: when the owner and the group resolve and the inode number is in
the range of a signed `long`, `print_directory` writes the line of the specification. -/
theorem print_directory_layout (env : Env) (entry : DirEntry) (options : Arguments)
    (user group : Bytes) (huser : env.getpwuid_r entry.st.st_uid = Lookup.found user)
    (hgroup : env.getgrgid_r entry.st.st_gid = Lookup.found group)
    (hino : entry.st.st_ino < 2 ^ 63) (hnlink : entry.st.st_nlink < 2 ^ 64)
    (hsize : entry.st.st_size < 2 ^ 64) :
    print_directory env entry options = (line_spec env entry options user group, false) := by
  have h1 : fmt_ld entry.st.st_ino = decimal entry.st.st_ino := by
    unfold fmt_ld
    rw [Nat.mod_eq_of_lt (lt_trans hino (by decide)), if_pos hino]
  have h2 : fmt_lu entry.st.st_nlink = decimal entry.st.st_nlink := by
    unfold fmt_lu
    rw [Nat.mod_eq_of_lt hnlink]
  have h3 : fmt_lu entry.st.st_size = decimal entry.st.st_size := by
    unfold fmt_lu
    rw [Nat.mod_eq_of_lt hsize]
  unfold print_directory line_spec name_field
  rw [huser, hgroup, h1, h2, h3]
  cases options.show_inode <;> cases options.long_listing <;>
    cases S_ISDIR entry.st.st_mode <;> simp

theorem print_directory_layout_witness :
    print_directory env_ok ⟨ascii "sub", st_dir⟩ ⟨true, false, false, true⟩ =
      (ascii "2 drwxr-xr-x 2 root wheel    4096 Jan 01 00:00 \x1b[34msub\x1b[0m\n", false) := by
  have h := print_directory_layout env_ok ⟨ascii "sub", st_dir⟩ ⟨true, false, false, true⟩
    (ascii "root") (ascii "wheel") rfl rfl (by decide) (by decide) (by decide)
  rw [h]
  decide

/-- C9: an inode number with the top bit set is written by `%ld` as a negative number, where
the line of the specification has the inode number. -/
theorem inode_printed_signed :
    print_directory env_ok ⟨ascii "f", { st_file with st_ino := 2 ^ 64 - 1 }⟩
      ⟨false, false, false, true⟩ = (ascii "-1  f\n", false) ∧
    line_spec env_ok ⟨ascii "f", { st_file with st_ino := 2 ^ 64 - 1 }⟩
      ⟨false, false, false, true⟩ (ascii "root") (ascii "wheel") =
      ascii "18446744073709551615  f\n" ∧
    print_directory env_ok ⟨ascii "f", { st_file with st_ino := 2 ^ 63 }⟩
      ⟨false, false, false, true⟩ = (ascii "-9223372036854775808  f\n", false) := by
  decide

/-! ## C10, C6: the 512-byte path buffers -/

/-- The joined path is stored whole exactly when it fits in the 511 bytes of the buffer. -/
theorem snprintf_join_fits (path name : Bytes) (h : path.length + 1 + name.length ≤ 511) :
    full_path path name = path ++ [47] ++ name ∧
    subdir_path path name = path ++ [47] ++ name := by
  have hlen : (path ++ [47] ++ name).length ≤ 512 - 1 := by
    simp only [List.length_append, List.length_singleton]
    omega
  exact ⟨List.take_of_length_le hlen, List.take_of_length_le hlen⟩

theorem snprintf_join_fits_witness :
    full_path (ascii "/tmp/x") (ascii "a.txt") = ascii "/tmp/x/a.txt" ∧
    subdir_path (ascii "/tmp/x") (ascii "a.txt") = ascii "/tmp/x/a.txt" :=
  snprintf_join_fits (ascii "/tmp/x") (ascii "a.txt") (by decide)

set_option maxRecDepth 100000 in
/-- C10: for the directory `/aaa...a/bbb...b` (510 bytes) and its file `f`, the joined path
has 512 bytes and the buffers keep its first 511: `stat` is queried on the directory itself,
so the regular file `f` is recorded with the status of the directory, and the recursion is
sent to the directory itself. -/
theorem long_path_is_truncated :
    deep_path.length = 510 ∧
    full_path deep_path (ascii "f") = deep_path ++ [47] ∧
    full_path deep_path (ascii "f") ≠ deep_path ++ [47] ++ ascii "f" ∧
    subdir_path deep_path (ascii "f") = deep_path ++ [47] ∧
    (tree_fs deep_tree).stat (deep_path ++ [47] ++ ascii "f") =
      some ⟨0o100644, 12, 1, 0, 0, 42, 0⟩ ∧
    read_directory (tree_fs deep_tree) deep_path ⟨false, false, false, false⟩ =
      some [⟨ascii "f", ⟨0o040755, 11, 2, 0, 0, 4096, 0⟩⟩] := by
  decide

set_option maxRecDepth 100000 in
theorem deep_read_slash :
    read_directory (tree_fs deep_tree) (deep_path ++ [47]) ⟨false, false, true, false⟩ =
      some [⟨ascii "f", ⟨0o040755, 11, 2, 0, 0, 4096, 0⟩⟩] ∧
    read_directory (tree_fs deep_tree) deep_path ⟨false, false, true, false⟩ =
      some [⟨ascii "f", ⟨0o040755, 11, 2, 0, 0, 4096, 0⟩⟩] ∧
    subdir_path (deep_path ++ [47]) (ascii "f") = deep_path ++ [47] ∧
    subdir_path deep_path (ascii "f") = deep_path ++ [47] ∧
    sort_entries [⟨ascii "f", ⟨0o040755, 11, 2, 0, 0, 4096, 0⟩⟩] =
      [⟨ascii "f", ⟨0o040755, 11, 2, 0, 0, 4096, 0⟩⟩] ∧
    (S_ISDIR 0o040755 && !starts_with_dot (ascii "f")) = true := by
  decide

/-- Once the path is the 511-byte `/aaa...a/bbb...b/`, every call of `list_directory` with
recursion on calls itself on the same path. -/
theorem deep_slash_diverges (env : Env) : ∀ fuel : Nat,
    list_directory (tree_fs deep_tree) env fuel (deep_path ++ [47])
      ⟨false, false, true, false⟩ = none := by
  intro fuel
  induction fuel with
  | zero => rfl
  | succ fuel ih =>
    obtain ⟨hread, -, hsub, -, hsort, hdir⟩ := deep_read_slash
    simp only [list_directory, hread, hsort]
    have hp : (print_entries env ⟨false, false, true, false⟩
        [⟨ascii "f", ⟨0o040755, 11, 2, 0, 0, 4096, 0⟩⟩]).2 = false := by
      simp [print_entries, print_directory]
    simp only [hp, descend, hdir, hsub, ih]
    simp

/-- From the 510-byte path `/aaa...a/bbb...b` the recursion enters the truncated path, so
no bound is enough. -/
theorem deep_path_diverges (env : Env) : ∀ fuel : Nat,
    list_directory (tree_fs deep_tree) env fuel deep_path ⟨false, false, true, false⟩ =
      none := by
  intro fuel
  cases fuel with
  | zero => rfl
  | succ fuel =>
    obtain ⟨-, hread, -, hsub, hsort, hdir⟩ := deep_read_slash
    simp only [list_directory, hread, hsort]
    have hp : (print_entries env ⟨false, false, true, false⟩
        [⟨ascii "f", ⟨0o040755, 11, 2, 0, 0, 4096, 0⟩⟩]).2 = false := by
      simp [print_entries, print_directory]
    simp only [hp, descend, hdir, hsub, deep_slash_diverges env fuel]
    simp

set_option maxRecDepth 100000 in
/-- C6: with recursion on, `list_directory` on the 510-byte path `/aaa...a/bbb...b` of a
tree of depth three never returns: the entry `f` is taken for a directory and the recursion
re-enters the same directory through the truncated path.  Without recursion the same call
returns after one block. -/
theorem recursion_never_returns_on_long_path :
    (∀ (env : Env) (fuel : Nat), list_directory (tree_fs deep_tree) env fuel deep_path
      ⟨false, false, true, false⟩ = none) ∧
    (list_directory (tree_fs deep_tree) env_ok 1 deep_path
      ⟨false, false, false, false⟩).map (fun run => (headers run.1, run.2)) =
      some ([deep_path], false) := by
  constructor
  · intro env fuel
    cases fuel with
    | zero => rfl
    | succ fuel =>
      obtain ⟨-, hread, -, hsub, hsort, hdir⟩ := deep_read_slash
      simp only [list_directory, hread, hsort]
      have hp : (print_entries env ⟨false, false, true, false⟩
          [⟨ascii "f", ⟨0o040755, 11, 2, 0, 0, 4096, 0⟩⟩]).2 = false := by
        simp [print_entries, print_directory]
      simp only [hp, descend, hdir, hsub, deep_slash_diverges env fuel]
      simp
  · decide

/-! ## Recursive listing of a tree whose paths fit in the buffers -/

theorem split_path_name : ∀ (n cur : Bytes), 47 ∉ n →
    split_path n cur = if cur ++ n = [] then [] else [cur ++ n] := by
  intro n
  induction n with
  | nil => intro cur _; simp [split_path]
  | cons c n ih =>
    intro cur h
    have hc : c ≠ 47 := fun e => h (by simp [e])
    have hn : 47 ∉ n := fun e => h (List.mem_cons_of_mem _ e)
    rw [split_path, if_neg hc, ih _ hn]
    simp

theorem split_path_join (n : Bytes) (hn : 47 ∉ n) (hne : n ≠ []) : ∀ (p cur : Bytes),
    split_path (p ++ [47] ++ n) cur = split_path p cur ++ [n] := by
  intro p
  induction p with
  | nil =>
    intro cur
    have h1 : split_path n [] = [n] := by
      rw [split_path_name n [] hn]
      simp [hne]
    simp only [List.nil_append, List.singleton_append, split_path, if_true]
    by_cases hcur : cur = [] <;> simp [hcur, h1]
  | cons c p ih =>
    intro cur
    show split_path (c :: (p ++ [47] ++ n)) cur = split_path (c :: p) cur ++ [n]
    rw [split_path, split_path]
    by_cases hc : c = 47
    · by_cases hcur : cur = []
      · rw [if_pos hc, if_pos hc, if_pos hcur, if_pos hcur, ih]
      · rw [if_pos hc, if_pos hc, if_neg hcur, if_neg hcur, ih]
        rfl
    · rw [if_neg hc, if_neg hc, ih]

theorem walk_append : ∀ (a b : List Bytes) (stack : List Node),
    walk stack (a ++ b) = (walk stack a).bind (fun s => walk s b) := by
  intro a
  induction a with
  | nil => intro b stack; simp [walk]
  | cons c a ih =>
    intro b stack
    show walk stack (c :: (a ++ b)) = _
    rw [walk, walk]
    cases walk_step stack c with
    | none => simp
    | some s => simpa using ih b s

theorem lookup_of_mem_nodup : ∀ (cs : List (Bytes × Node)) (n : Bytes) (c : Node),
    (cs.map Prod.fst).Nodup → (n, c) ∈ cs → cs.lookup n = some c := by
  intro cs
  induction cs with
  | nil => intro n c _ h; simp at h
  | cons x cs ih =>
    intro n c hnd hmem
    obtain ⟨m, d⟩ := x
    simp only [List.map_cons, List.nodup_cons] at hnd
    rcases List.mem_cons.mp hmem with heq | hmem'
    · cases heq
      simp [List.lookup]
    · have hne : n ≠ m := by
        intro e
        subst e
        exact hnd.1 (List.mem_map_of_mem Prod.fst hmem')
      have hbeq : (n == m) = false := by simpa using hne
      simp [List.lookup, hbeq, ih n c hnd.2 hmem']

theorem name_ok_spec {n : Bytes} (h : name_ok n = true) :
    n ≠ [] ∧ 47 ∉ n ∧ n ≠ [46] ∧ n ≠ [46, 46] := by
  simpa [name_ok, and_assoc] using h

theorem tree_ok_list_mem : ∀ (cs : List (Bytes × Node)) (n : Bytes) (c : Node),
    tree_ok_list cs = true → (n, c) ∈ cs → name_ok n = true ∧ tree_ok c = true := by
  intro cs
  induction cs with
  | nil => intro n c _ h; simp at h
  | cons x cs ih =>
    intro n c hok hmem
    obtain ⟨m, d⟩ := x
    simp only [tree_ok_list, Bool.and_eq_true] at hok
    rcases List.mem_cons.mp hmem with heq | hmem'
    · cases heq
      exact ⟨hok.1.1, hok.1.2⟩
    · exact ih n c hok.2 hmem'

theorem depth_list_mem : ∀ (cs : List (Bytes × Node)) (n : Bytes) (c : Node),
    (n, c) ∈ cs → c.depth ≤ depth_list cs := by
  intro cs
  induction cs with
  | nil => intro n c h; simp at h
  | cons x cs ih =>
    intro n c hmem
    obtain ⟨m, d⟩ := x
    simp only [depth_list]
    rcases List.mem_cons.mp hmem with heq | hmem'
    · cases heq
      exact le_max_left _ _
    · exact le_trans (ih n c hmem') (le_max_right _ _)

theorem fits_list_mem : ∀ (cs : List (Bytes × Node)) (len : Nat) (n : Bytes) (c : Node),
    fits_list len cs = true → (n, c) ∈ cs →
    len + 1 + n.length ≤ 511 ∧ (starts_with_dot n = false → fits (len + 1 + n.length) c = true) := by
  intro cs
  induction cs with
  | nil => intro len n c _ h; simp at h
  | cons x cs ih =>
    intro len n c hfit hmem
    obtain ⟨m, d⟩ := x
    simp only [fits_list, Bool.and_eq_true, decide_eq_true_eq, Bool.or_eq_true] at hfit
    rcases List.mem_cons.mp hmem with heq | hmem'
    · cases heq
      refine ⟨hfit.1.1, fun hdot => ?_⟩
      rcases hfit.1.2 with h | h
      · rw [hdot] at h
        cases h
      · exact h
    · exact ih len n c hfit.2 hmem'

/-- Resolution of the joined path of a child: the child is found below its directory. -/
theorem walk_child (root : Node) (path : Bytes) (st : Stat) (cs : List (Bytes × Node))
    (ups : List Node) (n : Bytes) (c : Node)
    (hwalk : walk [root] (split_path path []) = some (Node.dir st cs :: ups))
    (hnd : (cs.map Prod.fst).Nodup) (hname : name_ok n = true) (hmem : (n, c) ∈ cs) :
    walk [root] (split_path (path ++ [47] ++ n) []) = some (c :: Node.dir st cs :: ups) := by
  obtain ⟨h1, h2, h3, h4⟩ := name_ok_spec hname
  rw [split_path_join n h2 h1, walk_append, hwalk]
  simp [walk, walk_step, h3, h4, lookup_of_mem_nodup cs n c hnd hmem]

theorem getLast_join (path n : Bytes) (hname : name_ok n = true) :
    (path ++ [47] ++ n).getLast? ≠ some 47 := by
  obtain ⟨h1, h2, -, -⟩ := name_ok_spec hname
  rw [List.getLast?_append_of_ne_nil _ h1]
  intro h
  exact h2 (List.mem_of_getLast?_eq_some h)

theorem resolve_of_walk (root : Node) (path : Bytes) (st : Stat) (cs : List (Bytes × Node))
    (ups : List Node) (hne : path ≠ [])
    (hwalk : walk [root] (split_path path []) = some (Node.dir st cs :: ups)) :
    resolve root path = some (Node.dir st cs) := by
  simp [resolve, hne, hwalk]

theorem resolve_child (root : Node) (path : Bytes) (st : Stat) (cs : List (Bytes × Node))
    (ups : List Node) (n : Bytes) (c : Node)
    (hwalk : walk [root] (split_path path []) = some (Node.dir st cs :: ups))
    (hnd : (cs.map Prod.fst).Nodup) (hname : name_ok n = true) (hmem : (n, c) ∈ cs) :
    resolve root (path ++ [47] ++ n) = some c := by
  have hw := walk_child root path st cs ups n c hwalk hnd hname hmem
  have hne : path ++ [47] ++ n ≠ [] := by simp
  have hlast := getLast_join path n hname
  unfold resolve
  rw [if_neg hne, hw]
  cases c with
  | file st' => simp only [if_neg hlast]
  | dir st' cs' => rfl

theorem tree_ok_mode : ∀ c : Node, tree_ok c = true → S_ISDIR c.st.st_mode = c.is_dir
  | Node.file st => by
    intro h
    simpa [tree_ok, Node.st, Node.is_dir] using h
  | Node.dir st cs => by
    intro h
    simp only [tree_ok, Bool.and_eq_true] at h
    simpa [Node.st, Node.is_dir] using h.1.1

/-- A permutation of the image of a list is the image of a permutation of the list. -/
theorem perm_map_exists {α β : Type} (f : α → β) : ∀ (l : List β) (L : List α),
    l.Perm (L.map f) → ∃ L' : List α, L'.Perm L ∧ l = L'.map f := by
  intro l
  induction l with
  | nil =>
    intro L h
    have : L.map f = [] := List.Perm.eq_nil h.symm
    have hL : L = [] := by simpa using this
    exact ⟨[], by simp [hL], rfl⟩
  | cons x l ih =>
    intro L h
    have hx : x ∈ L.map f := h.subset (List.mem_cons_self _ _)
    obtain ⟨a, ha, hfa⟩ := List.mem_map.mp hx
    obtain ⟨s, t, hst⟩ := List.append_of_mem ha
    subst hst
    have h' : (x :: l).Perm (x :: (s ++ t).map f) := by
      refine h.trans ?_
      rw [List.map_append, List.map_cons, hfa, List.map_append]
      exact List.perm_middle
    obtain ⟨L'', hp, hl⟩ := ih (s ++ t) h'.cons_inv
    refine ⟨a :: L'', ?_, by simp [hfa, hl]⟩
    exact (hp.cons a).trans List.perm_middle.symm

theorem headers_append (a b : List Chunk) (h : HeaderFirst b) :
    headers (a ++ b) = headers a ++ headers b := by
  simp [headers, blocks_append a b h]

theorem headers_own_block (env : Env) (options : Arguments) (path : Bytes)
    (es : List DirEntry) (rest : List Chunk) :
    headers (Chunk.header path :: (lines_of env options es ++ rest)) = path :: headers rest := by
  simp [headers, blocks, blocks_lines_of]

/-- The recursion loop skips the entries that are not directories or begin with `.`. -/
theorem descend_filter (recur : Bytes → Option Run) (path : Bytes) : ∀ es : List DirEntry,
    descend recur path es = descend recur path
      (es.filter (fun e => S_ISDIR e.st.st_mode && !starts_with_dot e.name)) := by
  intro es
  induction es with
  | nil => rfl
  | cons e es ih =>
    by_cases hP : (S_ISDIR e.st.st_mode && !starts_with_dot e.name) = true
    · simp only [List.filter_cons, hP, if_true]
      rw [descend, descend, if_pos hP, if_pos hP, ih]
    · simp only [List.filter_cons, hP]
      rw [descend, if_neg hP, ih]
      rfl

/-- One step of the chain filter, filterMap, filter. -/
theorem pipeline_cons {α β : Type} (hid : α → Bool) (g : α → Option β) (P : β → Bool) (n : α)
    (l : List α) :
    (((n :: l).filter hid).filterMap g).filter P =
      (if hid n = true then
        (match g n with
          | some e => if P e = true then [e] else []
          | none => [])
      else []) ++ ((l.filter hid).filterMap g).filter P := by
  by_cases h : hid n = true
  · cases hg : g n with
    | none => simp [List.filter_cons, h, List.filterMap_cons, hg]
    | some e =>
      by_cases hp : P e = true <;> simp [List.filter_cons, h, List.filterMap_cons, hg, hp]
  · simp [List.filter_cons, h]

theorem pipeline_skip {α β : Type} (hid : α → Bool) (g : α → Option β) (P : β → Bool) (n : α)
    (l : List α) (h : ∀ e, g n = some e → P e = false) :
    (((n :: l).filter hid).filterMap g).filter P = ((l.filter hid).filterMap g).filter P := by
  rw [pipeline_cons]
  by_cases hh : hid n = true
  · cases hg : g n with
    | none => simp [hh]
    | some e => simp [hh, h e hg]
  · simp [hh]

theorem pipeline_children (hid : Bytes → Bool) (g : Bytes → Option DirEntry)
    (P : DirEntry → Bool) : ∀ l : List (Bytes × Node),
    (∀ n c, (n, c) ∈ l → (hid n = false → descended (n, c) = false) ∧
      g n = some ⟨n, c.st⟩ ∧ P ⟨n, c.st⟩ = descended (n, c)) →
    (((l.map Prod.fst).filter hid).filterMap g).filter P =
      (l.filter descended).map (fun nc => (⟨nc.1, nc.2.st⟩ : DirEntry)) := by
  intro l
  induction l with
  | nil => intro _; rfl
  | cons x l ih =>
    intro hspec
    obtain ⟨n, c⟩ := x
    obtain ⟨h1, h2, h3⟩ := hspec n c (List.mem_cons_self _ _)
    have ih' := ih (fun m d hmd => hspec m d (List.mem_cons_of_mem _ hmd))
    rw [List.map_cons, pipeline_cons, ih', h2]
    by_cases hh : hid n = true
    · rw [if_pos hh]
      by_cases hd : descended (n, c) = true
      · simp [h3, hd, List.filter_cons]
      · simp [h3, hd, List.filter_cons]
    · rw [if_neg hh]
      have hd : descended (n, c) = false := h1 (by simpa using hh)
      simp [hd, List.filter_cons]

/-- In a well-formed directory whose joined paths fit, the entries of the list that the
recursion loop descends into are those of the subdirectories whose name does not begin with
`.`, in the order of the enumeration. -/
theorem tree_entries_descended (root : Node) (options : Arguments) (path : Bytes) (st : Stat)
    (cs : List (Bytes × Node)) (ups : List Node)
    (hwalk : walk [root] (split_path path []) = some (Node.dir st cs :: ups))
    (hok : tree_ok (Node.dir st cs) = true) (hfit : fits path.length (Node.dir st cs) = true) :
    (read_loop (tree_fs root) path options ([46] :: [46, 46] :: cs.map Prod.fst) []).filter
        (fun e => S_ISDIR e.st.st_mode && !starts_with_dot e.name) =
      (cs.filter descended).map (fun nc => (⟨nc.1, nc.2.st⟩ : DirEntry)) := by
  simp only [tree_ok, Bool.and_eq_true, decide_eq_true_eq] at hok
  simp only [fits, Bool.and_eq_true, decide_eq_true_eq] at hfit
  obtain ⟨⟨-, hnd⟩, hoks⟩ := hok
  have hmain := pipeline_children (fun n => options.hidden_list || !starts_with_dot n)
    (fun n => ((tree_fs root).stat (full_path path n)).map (fun st => (⟨n, st⟩ : DirEntry)))
    (fun e => S_ISDIR e.st.st_mode && !starts_with_dot e.name) cs (by
      intro n c hmem
      obtain ⟨hname, hokc⟩ := tree_ok_list_mem cs n c hoks hmem
      obtain ⟨hlen, -⟩ := fits_list_mem cs path.length n c hfit.2 hmem
      have hstat : (tree_fs root).stat (full_path path n) = some c.st := by
        rw [(snprintf_join_fits path n hlen).1]
        show (resolve root (path ++ [47] ++ n)).map Node.st = some c.st
        rw [resolve_child root path st cs ups n c hwalk hnd hname hmem]
        rfl
      refine ⟨?_, ?_, ?_⟩
      · intro hh
        have hdot : starts_with_dot n = true := by
          cases hd : starts_with_dot n
          · simp [hd] at hh
          · rfl
        simp [descended, hdot]
      · simp only [hstat, Option.map_some']
      · simp only [tree_ok_mode c hokc, descended])
  have hd1 : starts_with_dot [46] = true := by decide
  have hd2 : starts_with_dot [46, 46] = true := by decide
  rw [read_loop_eq, List.nil_append, pipeline_skip, pipeline_skip, hmain]
  · intro e he
    cases hs : (tree_fs root).stat (full_path path [46, 46]) with
    | none => simp [hs] at he
    | some st' =>
      simp only [hs, Option.map_some', Option.some.injEq] at he
      subst he
      simp [hd2]
  · intro e he
    cases hs : (tree_fs root).stat (full_path path [46]) with
    | none => simp [hs] at he
    | some st' =>
      simp only [hs, Option.map_some', Option.some.injEq] at he
      subst he
      simp [hd1]

theorem print_entries_ok (env : Env) (options : Arguments)
    (hprint : ∀ e, (print_directory env e options).2 = false) : ∀ es : List DirEntry,
    print_entries env options es = (lines_of env options es, false) := by
  intro es
  induction es with
  | nil => rfl
  | cons e es ih => simp [print_entries, hprint e, ih, lines_of]

/-- The recursion loop over the entries of a list of subdirectories, when every recursive
call returns the traversal of its subdirectory. -/
theorem descend_children (recur : Bytes → Option Run) (path : Bytes) :
    ∀ subs : List (Bytes × Node),
    (∀ n c, (n, c) ∈ subs → (S_ISDIR c.st.st_mode && !starts_with_dot n) = true ∧
      ∃ out, recur (subdir_path path n) = some (out, false) ∧ HeaderFirst out ∧
        Traversal (path ++ [47] ++ n) c (headers out)) →
    ∃ out, descend recur path (subs.map (fun nc => (⟨nc.1, nc.2.st⟩ : DirEntry))) =
        some (out, false) ∧ HeaderFirst out ∧ TraversalList path subs (headers out) := by
  intro subs
  induction subs with
  | nil =>
    intro _
    exact ⟨[], rfl, Or.inl rfl, TraversalList.nil path⟩
  | cons x subs ih =>
    intro h
    obtain ⟨n, c⟩ := x
    obtain ⟨hP, out, hout, hhf, htr⟩ := h n c (List.mem_cons_self _ _)
    obtain ⟨out', hout', hhf', htr'⟩ := ih (fun m d hmd => h m d (List.mem_cons_of_mem _ hmd))
    refine ⟨out ++ out', ?_, headerFirst_append hhf hhf', ?_⟩
    · rw [List.map_cons, descend, if_pos hP]
      simp only [hout, hout']
    · rw [headers_append out out' hhf']
      exact TraversalList.cons path n c subs _ _ htr htr'

/-- On a well-formed tree whose joined paths fit in the buffers, a recursive listing from a
directory returns, for every bound above the depth of the tree, and its headers are the
pre-order traversal of the directories below, siblings in ascending name order, descending
only into subdirectories whose name does not begin with `.`. -/
theorem tree_listing_traversal (root : Node) (env : Env) (options : Arguments)
    (hrec : options.recursive_list = true)
    (hprint : ∀ e, (print_directory env e options).2 = false) :
    ∀ (fuel : Nat) (path : Bytes) (st : Stat) (cs : List (Bytes × Node)) (ups : List Node),
    path ≠ [] → walk [root] (split_path path []) = some (Node.dir st cs :: ups) →
    tree_ok (Node.dir st cs) = true → fits path.length (Node.dir st cs) = true →
    (Node.dir st cs).depth ≤ fuel →
    ∃ out, list_directory (tree_fs root) env fuel path options = some (out, false) ∧
      HeaderFirst out ∧ Traversal path (Node.dir st cs) (headers out) := by
  intro fuel
  induction fuel with
  | zero =>
    intro path st cs ups _ _ _ _ hdepth
    simp [Node.depth] at hdepth
  | succ fuel ih =>
    intro path st cs ups hne hwalk hok hfit hdepth
    have hopen : (tree_fs root).opendir path =
        some ([46] :: [46, 46] :: cs.map Prod.fst) := by
      show (match resolve root path with
        | some (Node.dir _ children) => some ([46] :: [46, 46] :: children.map Prod.fst)
        | _ => none) = _
      rw [resolve_of_walk root path st cs ups hne hwalk]
    have hread : read_directory (tree_fs root) path options =
        some (read_loop (tree_fs root) path options ([46] :: [46, 46] :: cs.map Prod.fst) []) := by
      simp [read_directory, hopen]
    have hok' := hok
    have hfit' := hfit
    simp only [tree_ok, Bool.and_eq_true, decide_eq_true_eq] at hok'
    simp only [fits, Bool.and_eq_true, decide_eq_true_eq] at hfit'
    obtain ⟨⟨-, hnd⟩, hoks⟩ := hok'
    generalize hE : read_loop (tree_fs root) path options
      ([46] :: [46, 46] :: cs.map Prod.fst) [] = E at hread
    have hEf := tree_entries_descended root options path st cs ups hwalk hok hfit
    rw [hE] at hEf
    have hperm : ((sort_entries E).filter
        (fun e => S_ISDIR e.st.st_mode && !starts_with_dot e.name)).Perm
        ((cs.filter descended).map (fun nc => (⟨nc.1, nc.2.st⟩ : DirEntry))) := by
      rw [← hEf]
      exact (sort_entries_perm E).filter _
    obtain ⟨subs, hsubs, hsorted⟩ := perm_map_exists _ _ _ hperm
    have hpair : subs.Pairwise (fun a b => strcmp a.1 b.1 ≤ 0) := by
      have h1 : ((sort_entries E).filter
          (fun e => S_ISDIR e.st.st_mode && !starts_with_dot e.name)).Pairwise name_le :=
        (sort_entries_sorted E).filter _
      rw [hsorted] at h1
      exact List.pairwise_map.mp h1
    obtain ⟨out', hout', hhf', htr'⟩ := descend_children
      (fun sub => list_directory (tree_fs root) env fuel sub options) path subs (by
        intro n c hmem
        have hmem' : (n, c) ∈ cs.filter descended := hsubs.mem_iff.mp hmem
        obtain ⟨hcs, hdesc⟩ := List.mem_filter.mp hmem'
        obtain ⟨hname, hokc⟩ := tree_ok_list_mem cs n c hoks hcs
        obtain ⟨hlen, hfitc⟩ := fits_list_mem cs path.length n c hfit'.2 hcs
        simp only [descended, Bool.and_eq_true, Bool.not_eq_true'] at hdesc
        refine ⟨by simp [tree_ok_mode c hokc, hdesc.1, hdesc.2], ?_⟩
        rw [(snprintf_join_fits path n hlen).2]
        cases c with
        | file st' => simp [Node.is_dir] at hdesc
        | dir st' cs' =>
          have hd : (Node.dir st' cs').depth ≤ fuel := by
            have := depth_list_mem cs n _ hcs
            simp only [Node.depth] at hdepth this ⊢
            omega
          have hf := hfitc hdesc.2
          have hlen' : (path ++ [47] ++ n).length = path.length + 1 + n.length := by
            simp only [List.length_append, List.length_singleton]
          rw [← hlen'] at hf
          exact ih (path ++ [47] ++ n) st' cs' (Node.dir st cs :: ups) (by simp)
            (walk_child root path st cs ups n _ hwalk hnd hname hcs) hokc hf hd)
    refine ⟨Chunk.header path :: (lines_of env options (sort_entries E) ++ out'), ?_,
      Or.inr ⟨_, _, rfl⟩, ?_⟩
    · rw [list_directory, hread]
      simp only [print_entries_ok env options hprint, hrec, if_true]
      rw [descend_filter, hsorted, hout']
      simp
    · rw [headers_own_block]
      exact Traversal.dir path st cs subs _ hsubs hpair htr'

theorem tree_listing_traversal_witness :
    (∃ out, list_directory (tree_fs tree_scenario_b) env_ok 3 (ascii "/tmp")
        ⟨false, true, true, false⟩ = some (out, false) ∧ HeaderFirst out ∧
      Traversal (ascii "/tmp") (Node.dir st_dir [(ascii "x", Node.dir st_dir
        [(ascii "sub", Node.dir st_dir []), (ascii "a.txt", Node.file st_file)])])
        (headers out)) ∧
    (list_directory (tree_fs tree_scenario_b) env_ok 3 (ascii "/tmp")
      ⟨false, true, true, false⟩).map (fun run => (headers run.1, run.2)) =
      some ([ascii "/tmp", ascii "/tmp/x", ascii "/tmp/x/sub"], false) ∧
    (list_directory (tree_fs tree_scenario_b) env_ok 2 (ascii "/tmp/x")
      ⟨false, false, true, false⟩).map (fun run => (stdout_bytes run.1, run.2)) =
      some (ascii "\n/tmp/x:\n a.txt\n \x1b[34msub\x1b[0m\n\n/tmp/x/sub:\n", false) :=
  ⟨tree_listing_traversal tree_scenario_b env_ok ⟨false, true, true, false⟩ rfl
    (fun e => by simp [print_directory]) 3 (ascii "/tmp") st_dir _ [tree_scenario_b]
    (by decide) rfl (by decide) (by decide) (by decide), by decide, by decide⟩

/-! ## C7, C8: the command line -/

/-- A path whose listing is empty can be dropped from the loop over the paths. -/
theorem list_paths_skip (fs : FS) (env : Env) (fuel : Nat) (options : Arguments) (path : Bytes)
    (hempty : list_directory fs env fuel path options = some ([], false)) :
    ∀ before after : List Bytes,
    list_paths fs env fuel options (before ++ path :: after) =
      list_paths fs env fuel options (before ++ after) := by
  intro before after
  induction before with
  | nil =>
    simp only [List.nil_append, list_paths, hempty]
    cases list_paths fs env fuel options after with
    | none => rfl
    | some r => simp
  | cons p before ih =>
    show list_paths fs env fuel options (p :: (before ++ path :: after)) =
      list_paths fs env fuel options (p :: (before ++ after))
    rw [list_paths, list_paths, ih]

/-- Inserting an operand among the words inserts it among the operands `getopt` leaves and
changes none of the option characters. -/
theorem getopt_scan_insert (path : Bytes) (hpath : is_option_word path = false) :
    ∀ before after : List Bytes,
    (getopt_scan (before ++ path :: after)).1 = (getopt_scan (before ++ after)).1 ∧
    ∃ b a, (getopt_scan (before ++ after)).2 = b ++ a ∧
      (getopt_scan (before ++ path :: after)).2 = b ++ path :: a := by
  have hne : path ≠ [45, 45] := by
    intro h
    subst h
    simp [is_option_word] at hpath
  intro before after
  induction before with
  | nil =>
    simp only [List.nil_append, getopt_scan, if_neg hne, hpath]
    exact ⟨by simp, [], (getopt_scan after).2, by simp, by simp⟩
  | cons w before ih =>
    obtain ⟨h1, b, a, h2, h3⟩ := ih
    show (getopt_scan (w :: (before ++ path :: after))).1 =
        (getopt_scan (w :: (before ++ after))).1 ∧
      ∃ b a, (getopt_scan (w :: (before ++ after))).2 = b ++ a ∧
        (getopt_scan (w :: (before ++ path :: after))).2 = b ++ path :: a
    rw [getopt_scan, getopt_scan]
    by_cases hw : w = [45, 45]
    · rw [if_pos hw, if_pos hw]
      exact ⟨rfl, before, after, rfl, rfl⟩
    · rw [if_neg hw, if_neg hw]
      by_cases ho : is_option_word w = true
      · rw [if_pos ho, if_pos ho, h1]
        exact ⟨rfl, b, a, h2, h3⟩
      · rw [if_neg ho, if_neg ho, h1]
        exact ⟨rfl, w :: b, a, by simp [h2], by simp [h3]⟩

/-- C7: when the directory `path` cannot be opened, `read_directory` fails with no list;
`list_directory` returns having written nothing, without any recursive call; the loop of
`main` over the paths produces what it produces without that path; and so does `main` for a
command line it accepts (at most five words after the program name). -/
theorem unreadable_directory_skipped (fs : FS) (env : Env) (options : Arguments) (path : Bytes)
    (hfail : fs.opendir path = none) :
    read_directory fs path options = none ∧
    (∀ fuel : Nat, list_directory fs env (fuel + 1) path options = some ([], false)) ∧
    (∀ (fuel : Nat) (before after : List Bytes),
      list_paths fs env (fuel + 1) options (before ++ path :: after) =
        list_paths fs env (fuel + 1) options (before ++ after)) ∧
    (∀ (fuel : Nat) (prog : Bytes) (before after : List Bytes),
      is_option_word path = false → (prog :: (before ++ path :: after)).length ≤ 6 →
      (main fs env (fuel + 1) (prog :: (before ++ path :: after))).map (fun r => r.1) =
        (main fs env (fuel + 1) (prog :: (before ++ after))).map (fun r => r.1)) := by
  have hread : ∀ o : Arguments, read_directory fs path o = none := by
    intro o
    simp [read_directory, hfail]
  have hlist : ∀ (fuel : Nat) (o : Arguments),
      list_directory fs env (fuel + 1) path o = some ([], false) := by
    intro fuel o
    simp [list_directory, hread o]
  refine ⟨hread options, fun fuel => hlist fuel options,
    fun fuel => list_paths_skip fs env (fuel + 1) options path (hlist fuel options), ?_⟩
  intro fuel prog before after hword hlen
  obtain ⟨h1, b, a, h2, h3⟩ := getopt_scan_insert path hword before after
  have hlen1 : ¬ ((prog :: (before ++ path :: after)).length < 2 ∨
      (prog :: (before ++ path :: after)).length > 6) := by
    simp only [List.length_cons, List.length_append] at hlen ⊢
    omega
  simp only [main, if_neg hlen1, List.tail_cons, h1, h3]
  by_cases hlen2 : (prog :: (before ++ after)).length < 2 ∨ (prog :: (before ++ after)).length > 6
  · have hnil : before ++ after = [] := by
      simp only [List.length_cons, List.length_append] at hlen hlen2
      apply List.length_eq_zero.mp
      simp only [List.length_append]
      omega
    have hb : before = [] := (List.append_eq_nil.mp hnil).1
    have ha : after = [] := (List.append_eq_nil.mp hnil).2
    subst hb ha
    simp only [List.nil_append, getopt_scan] at h2
    have hb' : b = [] := (List.append_eq_nil.mp h2.symm).1
    have ha' : a = [] := (List.append_eq_nil.mp h2.symm).2
    subst hb' ha'
    simp [if_pos hlen2, getopt_scan, apply_options, list_paths, hlist fuel]
  · simp only [if_neg hlen2, List.tail_cons, h2]
    cases apply_options (getopt_scan (before ++ after)).1 ⟨false, false, false, false⟩ with
    | none => rfl
    | some o =>
      simp only []
      have hskip := list_paths_skip fs env (fuel + 1) o path (hlist fuel o) b a
      by_cases hba : b ++ a = []
      · have hb' : b = [] := (List.append_eq_nil.mp hba).1
        have ha' : a = [] := (List.append_eq_nil.mp hba).2
        subst hb' ha'
        simp [list_paths, hlist fuel]
      · have hne : b ++ path :: a ≠ [] := by simp
        rw [if_neg hne, if_neg hba, hskip]

theorem unreadable_directory_skipped_witness :
    fs_scenario_a.opendir (ascii "/nope") = none ∧
    read_directory fs_scenario_a (ascii "/nope") ⟨false, false, false, false⟩ = none ∧
    list_directory fs_scenario_a env_ok 1 (ascii "/nope") ⟨false, false, false, false⟩ =
      some ([], false) ∧
    list_paths fs_scenario_a env_ok 1 ⟨false, false, false, false⟩
        [ascii "/nope", ascii "/tmp/x"] =
      list_paths fs_scenario_a env_ok 1 ⟨false, false, false, false⟩ [ascii "/tmp/x"] ∧
    (main fs_scenario_a env_ok 1 [ascii "ls", ascii "/nope", ascii "/tmp/x"]).map
        (fun r => (stdout_bytes r.1.1, r.1.2, r.2)) =
      some (ascii "\n/tmp/x:\n a.txt\n b.txt\n", false, some 0) :=
  have h := unreadable_directory_skipped fs_scenario_a env_ok ⟨false, false, false, false⟩
    (ascii "/nope") (by decide)
  ⟨by decide, h.1, h.2.1 0, h.2.2.1 0 [] [ascii "/tmp/x"], by decide⟩

/-! ### C8 -/

theorem optstring_eq : optstring = [108, 97, 82, 105] := by decide

/-- The `switch` of `main` accepts every sequence of the four option characters and sets
exactly the flags that occur. -/
theorem apply_options_flags : ∀ (flags : List Nat) (o : Arguments),
    (∀ c ∈ flags, c ∈ optstring) →
    apply_options flags o = some ⟨o.long_listing || decide (108 ∈ flags),
      o.hidden_list || decide (97 ∈ flags), o.recursive_list || decide (82 ∈ flags),
      o.show_inode || decide (105 ∈ flags)⟩ := by
  intro flags
  induction flags with
  | nil => intro o _; simp [apply_options]
  | cons c flags ih =>
    intro o h
    have hc : c ∈ optstring := h c (List.mem_cons_self _ _)
    have hrest : ∀ x ∈ flags, x ∈ optstring := fun x hx => h x (List.mem_cons_of_mem _ hx)
    rw [optstring_eq] at hc
    simp only [List.mem_cons, List.mem_singleton, List.not_mem_nil, or_false] at hc
    rcases hc with rfl | rfl | rfl | rfl <;>
      simp [apply_options, ih _ hrest, Bool.or_assoc]

/-- On option words followed by operands, `getopt` returns the option characters in order and
leaves the operands. -/
theorem getopt_scan_flags (paths : List Bytes) (hpaths : ∀ p ∈ paths, is_option_word p = false) :
    ∀ flags : List Nat, (∀ c ∈ flags, c ∈ optstring) →
    getopt_scan (flags.map flag_word ++ paths) = (flags, paths) := by
  have hops : getopt_scan paths = ([], paths) := by
    induction paths with
    | nil => rfl
    | cons p paths ih =>
      have hp : is_option_word p = false := hpaths p (List.mem_cons_self _ _)
      have hne : p ≠ [45, 45] := by
        intro e
        subst e
        simp [is_option_word] at hp
      rw [getopt_scan, if_neg hne, hp, ih (fun q hq => hpaths q (List.mem_cons_of_mem _ hq))]
      simp
  intro flags
  induction flags with
  | nil => intro _; simpa using hops
  | cons c flags ih =>
    intro h
    have hc : c ∈ optstring := h c (List.mem_cons_self _ _)
    have hrest : ∀ x ∈ flags, x ∈ optstring := fun x hx => h x (List.mem_cons_of_mem _ hx)
    have hne : flag_word c ≠ [45, 45] := by
      intro e
      simp only [flag_word, List.cons.injEq, and_true, true_and] at e
      subst e
      rw [optstring_eq] at hc
      simp at hc
    show getopt_scan (flag_word c :: (flags.map flag_word ++ paths)) = (c :: flags, paths)
    rw [getopt_scan, if_neg hne, ih hrest]
    simp [flag_word, is_option_word, hc]

/-- C8 (amended): for a command line of at most six words (`argc <= 6`) made of the program
name, options among `-l`, `-a`, `-R`, `-i` in any order and number, and then one or more
paths that `getopt` does not read as options, when the listing of each path with exactly the
flags of the given options returns without a fault, `main` writes the outputs of
`list_directory` on every path, once each and in argument order, and returns 0.  Every
command line of more than six words is rejected before any listing, `main` returning `errno`
as `perror` left it after it was set to `EINVAL`. -/
theorem main_lists_each_path (fs : FS) (env : Env) (fuel : Nat) (prog : Bytes)
    (flags : List Nat) (paths : List Bytes) (outs : List (List Chunk))
    (hflags : ∀ c ∈ flags, c ∈ optstring)
    (hpaths : ∀ p ∈ paths, is_option_word p = false) (hsome : paths ≠ [])
    (hcount : (prog :: (flags.map flag_word ++ paths)).length ≤ 6)
    (hruns : List.Forall₂
      (fun p out => list_directory fs env fuel p (options_of flags) = some (out, false))
      paths outs) :
    main fs env fuel (prog :: (flags.map flag_word ++ paths)) =
      some ((outs.flatten, false), some 0) ∧
    (∀ argv : List Bytes, 6 < argv.length →
      main fs env fuel argv = some (([], false), some (env.perror EINVAL))) := by
  constructor
  · have hlen : ¬ ((prog :: (flags.map flag_word ++ paths)).length < 2 ∨
        (prog :: (flags.map flag_word ++ paths)).length > 6) := by
      have hpos : 0 < paths.length := List.length_pos.mpr hsome
      simp only [List.length_cons, List.length_append, List.length_map] at hcount ⊢
      omega
    have hopts : apply_options flags ⟨false, false, false, false⟩ = some (options_of flags) := by
      rw [apply_options_flags flags _ hflags]
      simp [options_of]
    have hall : list_paths fs env fuel (options_of flags) paths = some (outs.flatten, false) := by
      clear hpaths hsome hcount hlen
      induction hruns with
      | nil => rfl
      | cons hp _ ih =>
        rw [list_paths, hp]
        simp only [ih, List.flatten_cons]
    simp only [main, if_neg hlen, List.tail_cons, getopt_scan_flags paths hpaths flags hflags,
      hopts, if_neg hsome, hall]
  · intro argv hlong
    have hlen : argv.length < 2 ∨ argv.length > 6 := Or.inr hlong
    simp only [main, if_pos hlen]

theorem main_lists_each_path_witness :
    main fs_scenario_a env_ok 1 [ascii "ls", ascii "-a", ascii "-i", ascii "/tmp/x"] =
      some ((listing_a_i, false), some 0) ∧
    stdout_bytes listing_a_i = ascii "\n/tmp/x:\n3  .c\n3  a.txt\n3  b.txt\n" ∧
    main fs_scenario_a env_stderr_closed 1
      [ascii "ls", ascii "-a", ascii "-i", ascii "/tmp/x", ascii "/tmp/x", ascii "/tmp/x",
        ascii "/tmp/x"] = some (([], false), some 9) :=
  have h := main_lists_each_path fs_scenario_a env_ok 1 (ascii "ls") [97, 105] [ascii "/tmp/x"]
    [listing_a_i] (by decide) (by decide) (by decide) (by decide)
    (List.Forall₂.cons (by decide) List.Forall₂.nil)
  ⟨by simpa using h.1, by decide,
    (main_lists_each_path fs_scenario_a env_stderr_closed 1 (ascii "ls") [97, 105]
      [ascii "/tmp/x"] [listing_a_i] (by decide) (by decide) (by decide) (by decide)
      (List.Forall₂.cons (by decide) List.Forall₂.nil)).2 _ (by decide)⟩

set_option maxRecDepth 100000 in
theorem getopt_scan_deep :
    getopt_scan [ascii "-R", deep_path] = ([82], [deep_path]) ∧
    apply_options [82] ⟨false, false, false, false⟩ = some ⟨false, false, true, false⟩ := by
  decide

/-- C8 (as stated): a command line with the four options and two listable directories has
seven words, so `main` rejects it before any listing, although the loop over its two paths
would list both; a directory whose name begins with `-` is read by `getopt` as a group of
options and rejected, although `list_directory` lists it; with `-l` and an owner without a
record the process is killed in the first line of the first path, so the second path is not
listed and `main` returns nothing; and with `-R` on the 510-byte path `/aaa...a/bbb...b`
`main` never returns. -/
theorem main_rejects_seven_words :
    main (tree_fs tree_scenario_b) env_ok 3
      [ascii "ls", ascii "-l", ascii "-a", ascii "-R", ascii "-i", ascii "/tmp", ascii "/tmp/x"]
      = some (([], false), some EINVAL) ∧
    (list_paths (tree_fs tree_scenario_b) env_ok 3 (options_of [108, 97, 82, 105])
      [ascii "/tmp", ascii "/tmp/x"]).map (fun run => (headers run.1, run.2)) =
      some ([ascii "/tmp", ascii "/tmp/x", ascii "/tmp/x/sub", ascii "/tmp/x",
        ascii "/tmp/x/sub"], false) ∧
    main (tree_fs tree_scenario_b) env_ok 3
      [ascii "ls", ascii "-l", ascii "-a", ascii "-R", ascii "-i", ascii "/tmp", ascii "/tmp/x"]
      ≠ (list_paths (tree_fs tree_scenario_b) env_ok 3 (options_of [108, 97, 82, 105])
        [ascii "/tmp", ascii "/tmp/x"]).map (fun run => (run, some 0)) ∧
    main (tree_fs tree_dash) env_ok 1 [ascii "ls", ascii "-x"] =
      some (([], false), some EINVAL) ∧
    (list_directory (tree_fs tree_dash) env_ok 1 (ascii "-x")
      ⟨false, false, false, false⟩).map (fun run => (stdout_bytes run.1, run.2)) =
      some (ascii "\n-x:\n a.txt\n", false) ∧
    (main fs_scenario_a env_user_absent 1
      [ascii "ls", ascii "-l", ascii "/tmp/x", ascii "/tmp/x"]).map
      (fun r => (stdout_bytes r.1.1, r.1.2, r.2)) =
      some (ascii "\n/tmp/x:\n-rw-r--r-- 1", true, none) ∧
    (∀ fuel : Nat,
      main (tree_fs deep_tree) env_ok fuel [ascii "ls", ascii "-R", deep_path] = none) := by
  refine ⟨by decide, by decide, by decide, by decide, by decide, by decide, ?_⟩
  intro fuel
  have hlen : ¬ ([ascii "ls", ascii "-R", deep_path].length < 2 ∨
      [ascii "ls", ascii "-R", deep_path].length > 6) := by decide
  simp only [main, if_neg hlen, List.tail_cons, getopt_scan_deep.1, getopt_scan_deep.2]
  simp [list_paths, deep_path_diverges env_ok fuel]

end Ls
